import Mathlib

/-!
Verification of the admission / caching / queueing core of the
`ts-user-data-express` repository against its natural-language specification.

The development shallowly embeds three components:

* `RL`  — the sliding-window rate limiter of `src/middleware/rate-limiter.ts`
          (store of per-identity timestamp windows; `isAllowed`,
          `cleanupOldEntries`, `recordRequest`, and the middleware sequence).
* `LRU` — the LRU cache with TTL of the cache module
          (`get`, `set`, `removeLRU`, `moveToFront`, expiry check).
* `AQ`  — the deduplicating bounded-concurrency retry queue of
          `src/queue/async-queue.ts`, modelled as a small-step state machine
          (`enqueue`, dispatch, completion, retry, terminal failure, the
          dedup-map cleanup callback, and `clear`).

Timestamps (`Date.now()`) are explicit natural-number parameters.  The
JavaScript event loop serializes all queue bookkeeping, so each synchronous
block of the source is one atomic step of the machine; the nondeterministic
interleaving of steps covers every real schedule.
-/

namespace RL

/-- Configuration of the rate limiter (`RateLimiterConfig` in the source):
main window duration/limit and burst window duration/limit, in ms. -/
structure RateLimiterConfig where
  windowMs : Nat
  maxRequests : Nat
  burstWindowMs : Nat
  burstMaxRequests : Nat
deriving DecidableEq

/-- Per-identity window (`RateLimitWindow`): timestamps of the requests
counted by the sustained window and by the burst window. -/
structure RateLimitWindow where
  requests : List Nat
  burstRequests : List Nat
deriving DecidableEq

/-- The limiter store, a JS `Map` from identity key to its window, modelled
as an association list in insertion order. -/
abbrev Store := List (String × RateLimitWindow)

/-- JS `Map.get`. -/
def lookup (s : Store) (k : String) : Option RateLimitWindow :=
  (s.find? (fun p => p.1 = k)).map (fun p => p.2)

/-- JS `Map.set`: replace in place when the key is present, append otherwise. -/
def insert (s : Store) (k : String) (w : RateLimitWindow) : Store :=
  if (s.find? (fun p => p.1 = k)).isSome then
    s.map (fun p => if p.1 = k then (k, w) else p)
  else
    s ++ [(k, w)]

/-- JS `Map.delete`. -/
def erase (s : Store) (k : String) : Store :=
  s.filter (fun p => ¬ p.1 = k)

/-- The filtering that `cleanupOldEntries` applies to a window: drop
timestamps with `now - t >= windowMs` (resp. `burstWindowMs`). -/
def filteredWindow (cfg : RateLimiterConfig) (now : Nat) (w : RateLimitWindow) :
    RateLimitWindow :=
  { requests := w.requests.filter (fun t => now - t < cfg.windowMs)
    burstRequests := w.burstRequests.filter (fun t => now - t < cfg.burstWindowMs) }

/-- `RateLimiter.cleanupOldEntries(key, now)`: filter both timestamp lists of
the key's window; if both become empty, delete the key from the store. -/
def cleanupOldEntries (cfg : RateLimiterConfig) (k : String) (now : Nat)
    (s : Store) : Store :=
  match lookup s k with
  | none => s
  | some w =>
    let wf := filteredWindow cfg now w
    if wf.requests = [] ∧ wf.burstRequests = [] then erase s k
    else insert s k wf

/-- Result of `isAllowed`: the `allowed` flag and, on denial, `retryAfter`
in seconds. -/
structure RLResult where
  allowed : Bool
  retryAfter : Option Nat
deriving DecidableEq

/-- `Math.ceil(p / 1000)` for the positive integer `p` that the retry-after
computation produces (`oldest + window - now` with `oldest` in-window).
`Math.min` of an empty array (reachable only when the burst maximum is 0)
is modelled as 0. -/
def ceilDiv1000 (p : Nat) : Nat := (p + 999) / 1000

/-- `RateLimiter.isAllowed(key)`: create the window if absent, run
`cleanupOldEntries`, then check the burst window and the main window against
their limits, computing `retryAfter` from the oldest surviving timestamp on
denial.  The local `window` object holds the filtered lists after cleanup,
so the counts below are taken over the filtered window. -/
def isAllowed (cfg : RateLimiterConfig) (now : Nat) (k : String) (s : Store) :
    Store × RLResult :=
  let s₁ := match lookup s k with
    | none => insert s k { requests := [], burstRequests := [] }
    | some _ => s
  let w := (lookup s₁ k).getD { requests := [], burstRequests := [] }
  let wf := filteredWindow cfg now w
  let s₂ := cleanupOldEntries cfg k now s₁
  let burstCount :=
    (wf.burstRequests.filter (fun t => now - t < cfg.burstWindowMs)).length
  if burstCount ≥ cfg.burstMaxRequests then
    let oldest := (wf.burstRequests.min?).getD 0
    (s₂, { allowed := false
           retryAfter := some (ceilDiv1000 (oldest + cfg.burstWindowMs - now)) })
  else
    let mainCount :=
      (wf.requests.filter (fun t => now - t < cfg.windowMs)).length
    if mainCount ≥ cfg.maxRequests then
      let oldest := (wf.requests.min?).getD 0
      (s₂, { allowed := false
             retryAfter := some (ceilDiv1000 (oldest + cfg.windowMs - now)) })
    else
      (s₂, { allowed := true, retryAfter := none })

/-- `RateLimiter.recordRequest(key)`: if the store still has a window for the
key, push `now` onto both timestamp lists; otherwise do nothing. -/
def recordRequest (now : Nat) (k : String) (s : Store) : Store :=
  match lookup s k with
  | none => s
  | some w =>
    insert s k { requests := w.requests ++ [now]
                 burstRequests := w.burstRequests ++ [now] }

/-- One pass of the middleware for one request: `isAllowed`, then, only when
allowed, `recordRequest`. -/
def handleRequest (cfg : RateLimiterConfig) (now : Nat) (k : String)
    (s : Store) : Store × RLResult :=
  let (s₁, r) := isAllowed cfg now k s
  if r.allowed then (recordRequest now k s₁, r) else (s₁, r)

/-- Run a sequence of `(now, key)` requests through the middleware,
collecting the results. -/
def runRequests (cfg : RateLimiterConfig) : List (Nat × String) → Store →
    Store × List RLResult
  | [], s => (s, [])
  | (now, k) :: rest, s =>
    let (s₁, r) := handleRequest cfg now k s
    let (s₂, rs) := runRequests cfg rest s₁
    (s₂, r :: rs)

/-- The production configuration: 10 requests per 60 s, burst 5 per 10 s. -/
def prodConfig : RateLimiterConfig :=
  { windowMs := 60000, maxRequests := 10, burstWindowMs := 10000
    burstMaxRequests := 5 }

end RL

namespace LRU

/-- A cache entry (`CacheNode`): key, value and creation/refresh timestamp.
The `prev`/`next` pointers of the source's doubly linked list are abstracted
into the entry's position in the recency list below. -/
structure CacheEntry (T : Type) where
  key : String
  value : T
  timestamp : Nat
deriving DecidableEq

/-- State of `LRUCache`: capacity, TTL in ms, and the recency list, head
first (most recently used) and tail last (least recently used).  The key to
node `Map` of the source always agrees with the list on membership, so the
list alone represents both.  Statistics counters as in the source. -/
structure CacheState (T : Type) where
  capacity : Nat
  ttl : Nat
  entries : List (CacheEntry T)
  hits : Nat
  misses : Nat
  evictions : Nat
  expirations : Nat
deriving DecidableEq

/-- The `LRUCache` constructor: `ttl = ttlSeconds * 1000`, empty cache. -/
def initCache (T : Type) (capacity ttlSeconds : Nat) : CacheState T :=
  { capacity := capacity, ttl := ttlSeconds * 1000, entries := []
    hits := 0, misses := 0, evictions := 0, expirations := 0 }

/-- `LRUCache.isExpired(node)`: `Date.now() - node.timestamp > this.ttl`
(strict comparison). -/
def isExpired {T : Type} (now ttl : Nat) (e : CacheEntry T) : Bool :=
  now - e.timestamp > ttl

/-- Lookup in the key map: `this.cache.get(key)`. -/
def findEntry {T : Type} (entries : List (CacheEntry T)) (k : String) :
    Option (CacheEntry T) :=
  entries.find? (fun e => e.key = k)

/-- `removeNode` plus `this.cache.delete(key)` for the node holding `k`. -/
def removeKey {T : Type} (entries : List (CacheEntry T)) (k : String) :
    List (CacheEntry T) :=
  entries.filter (fun e => ¬ e.key = k)

/-- `LRUCache.moveToFront(node)`: unlink the node and relink it at the head.
The source's early return when the node already is the head produces the
same sequence, so it is elided. -/
def moveToFront {T : Type} (entries : List (CacheEntry T)) (e : CacheEntry T) :
    List (CacheEntry T) :=
  e :: removeKey entries e.key

/-- `LRUCache.get(key)`: miss on absence; on an expired entry record a miss
and an expiration and remove it; otherwise move the node to the front,
record a hit and return its value. -/
def get {T : Type} (now : Nat) (k : String) (s : CacheState T) :
    Option T × CacheState T :=
  match findEntry s.entries k with
  | none => (none, { s with misses := s.misses + 1 })
  | some node =>
    if isExpired now s.ttl node then
      (none, { s with misses := s.misses + 1
                      expirations := s.expirations + 1
                      entries := removeKey s.entries k })
    else
      (some node.value, { s with hits := s.hits + 1
                                 entries := moveToFront s.entries node })

/-- `LRUCache.removeLRU()`: drop the tail (least recently used) entry and
count an eviction; no-op on an empty cache. -/
def removeLRU {T : Type} (s : CacheState T) : CacheState T :=
  match s.entries.getLast? with
  | none => s
  | some _ => { s with entries := s.entries.dropLast
                       evictions := s.evictions + 1 }

/-- `LRUCache.set(key, value)`: when the key exists, update the node's value
and timestamp in place and move it to the front; otherwise evict the LRU
entry when at capacity and insert the new node at the front. -/
def set {T : Type} (now : Nat) (k : String) (v : T) (s : CacheState T) :
    CacheState T :=
  match findEntry s.entries k with
  | some _ =>
    { s with entries := CacheEntry.mk k v now :: removeKey s.entries k }
  | none =>
    let s₁ := if s.entries.length ≥ s.capacity then removeLRU s else s
    { s₁ with entries := CacheEntry.mk k v now :: s₁.entries }

end LRU

namespace AQ

/-- Settlement of a job's shared promise: resolution with the task's value,
rejection with the task's terminal failure, or rejection by `clear()` with
the distinct "Queue cleared" failure. -/
inductive Settle where
  | resolvedOk : Settle
  | rejectedErr : Settle
  | rejectedCleared : Settle
deriving DecidableEq

/-- `QueueConfig`: concurrency cap, retry maximum, retry delay (ms) and the
deduplication switch. -/
structure QueueConfig where
  concurrency : Nat
  maxRetries : Nat
  retryDelay : Nat
  deduplication : Bool
deriving DecidableEq

/-- `Partial QueueConfig` as accepted by the `AsyncQueue` constructor:
every field may be absent (`undefined`). -/
structure PartialQueueConfig where
  concurrency : Option Nat
  maxRetries : Option Nat
  retryDelay : Option Nat
  deduplication : Option Bool
deriving DecidableEq

/-- JS `x || d` for a possibly-undefined number: `undefined` and `0` are
falsy and give the default. -/
def jsOrNat (v : Option Nat) (d : Nat) : Nat :=
  match v with
  | none => d
  | some n => if n = 0 then d else n

/-- The `AsyncQueue` constructor: `concurrency || 5`, `maxRetries || 3`,
`retryDelay || 1000`, `deduplication !== false`. -/
def mkQueueConfig (c : PartialQueueConfig) : QueueConfig :=
  { concurrency := jsOrNat c.concurrency 5
    maxRetries := jsOrNat c.maxRetries 3
    retryDelay := jsOrNat c.retryDelay 1000
    deduplication := c.deduplication ≠ some false }

/-- A `QueueJob` object: its key (`id`), the identity `jobRef` of the job
object and of the promise created with it, and its retry counter.  The
`task`, `resolve` and `reject` closures are represented by `jobRef`:
invoking the task is logged under `jobRef`, and settling the promise is
recorded against `jobRef` in the state. -/
structure QueueJob where
  id : String
  jobRef : Nat
  retries : Nat
deriving DecidableEq

/-- State of the `AsyncQueue` event machine.

`queue`, `executing` and `delaying` partition the live job objects: waiting
in `this.queue`, running inside `await job.task()`, and waiting out the
retry delay.  The source's `processing` counter is incremented at dispatch
and decremented in the `finally` block, so it counts `executing` and
`delaying` together.  `dedupMap` is `this.deduplicationMap` (key to promise
reference), `settled` records each promise's first settlement, `attached`
maps each caller of `enqueue` to the promise reference it received.
`createdLog`, `invokedLog` and `requeueLog` are append-only observation
logs of job creations, `job.task()` invocations and retry re-enqueues.
`completed`, `failed` and `totalProcessingTime` are `this.stats`. -/
structure QState where
  queue : List QueueJob
  executing : List QueueJob
  delaying : List QueueJob
  dedupMap : List (String × Nat)
  settled : List (Nat × Settle)
  attached : List (Nat × Nat)
  createdLog : List (String × Nat)
  invokedLog : List Nat
  requeueLog : List Nat
  nextRef : Nat
  nextCaller : Nat
  completed : Nat
  failed : Nat
  totalProcessingTime : Nat
deriving DecidableEq

/-- The freshly constructed queue. -/
def initQ : QState :=
  { queue := [], executing := [], delaying := [], dedupMap := []
    settled := [], attached := [], createdLog := [], invokedLog := []
    requeueLog := [], nextRef := 0, nextCaller := 0, completed := 0
    failed := 0, totalProcessingTime := 0 }

/-- The source's `processing` counter. -/
def procCount (s : QState) : Nat := s.executing.length + s.delaying.length

/-- JS `Map.get` on the dedup map. -/
def lookupKey (m : List (String × Nat)) (k : String) : Option Nat :=
  (m.find? (fun p => p.1 = k)).map (fun p => p.2)

/-- JS `Map.set` on the dedup map. -/
def mapSet (m : List (String × Nat)) (k : String) (r : Nat) :
    List (String × Nat) :=
  if (m.find? (fun p => p.1 = k)).isSome then
    m.map (fun p => if p.1 = k then (k, r) else p)
  else
    m ++ [(k, r)]

/-- JS `Map.delete` on the dedup map. -/
def mapDel (m : List (String × Nat)) (k : String) : List (String × Nat) :=
  m.filter (fun p => ¬ p.1 = k)

/-- Settle a promise: a promise settles at most once, later resolutions and
rejections of an already settled promise are no-ops. -/
def settleRef (l : List (Nat × Settle)) (r : Nat) (v : Settle) :
    List (Nat × Settle) :=
  if (l.find? (fun p => p.1 = r)).isSome then l else l ++ [(r, v)]

/-- Events of the queue machine.  Each constructor is one synchronous block
of the source; the index `i` selects which of the concurrently running jobs
the event concerns, and `dt` is the measured processing time of a
successful task. -/
inductive QStep where
  | enqueue : String → QStep
  | dispatch : QStep
  | completeOk : Nat → Nat → QStep
  | failBegin : Nat → QStep
  | failRequeue : Nat → QStep
  | failTerminal : Nat → QStep
  | dedupCleanup : String → QStep
  | clearAll : QStep
deriving DecidableEq

/-- One step of the queue machine.

* `enqueue k` — `AsyncQueue.enqueue(key, task)`: with deduplication on and
  a promise already registered for `k`, the caller just receives that
  promise; otherwise a fresh job object is created, pushed at the back of
  the queue, and its promise is registered for `k` when deduplication is
  on.  (`processNext` is invoked synchronously inside `enqueue`; it is the
  separate `dispatch` event, which no other code can observe in between.)
* `dispatch` — the front of `processNext`: return when `processing`
  has reached the concurrency cap or the queue is empty, else shift the
  first job, increment `processing` and invoke its task.
* `completeOk i dt` — the task of the `i`-th executing job returns: add the
  processing time, increment `completed`, resolve the job's promise, and
  leave `processing` (the `finally` block runs in the same synchronous
  block).
* `failBegin i` — the task of the `i`-th executing job throws while
  `retries < maxRetries`: increment the job's retry counter and enter the
  retry delay.
* `failRequeue i` — the retry delay of the `i`-th delaying job elapses:
  `unshift` the same job object onto the front of the queue; the `finally`
  block then decrements `processing`.
* `failTerminal i` — the task of the `i`-th executing job throws with
  `retries` at the maximum: increment `failed` and reject the job's
  promise.
* `dedupCleanup k` — the `promise.finally` callback registered by
  `enqueue`: once the promise registered under `k` has settled, delete the
  map entry for `k`.
* `clearAll` — `AsyncQueue.clear()`: reject every queued job with the
  "Queue cleared" failure, empty the queue and the whole dedup map. -/
def applyStep (cfg : QueueConfig) (s : QState) : QStep → QState
  | .enqueue k =>
    if cfg.deduplication ∧ (lookupKey s.dedupMap k).isSome then
      match lookupKey s.dedupMap k with
      | some r =>
        { s with attached := s.attached ++ [(s.nextCaller, r)]
                 nextCaller := s.nextCaller + 1 }
      | none => s
    else
      let r := s.nextRef
      { s with queue := s.queue ++ [QueueJob.mk k r 0]
               dedupMap := if cfg.deduplication then mapSet s.dedupMap k r
                           else s.dedupMap
               attached := s.attached ++ [(s.nextCaller, r)]
               createdLog := s.createdLog ++ [(k, r)]
               nextRef := r + 1
               nextCaller := s.nextCaller + 1 }
  | .dispatch =>
    if procCount s ≥ cfg.concurrency then s
    else
      match s.queue with
      | [] => s
      | j :: rest =>
        { s with queue := rest
                 executing := s.executing ++ [j]
                 invokedLog := s.invokedLog ++ [j.jobRef] }
  | .completeOk i dt =>
    match s.executing[i]? with
    | none => s
    | some j =>
      { s with executing := s.executing.eraseIdx i
               totalProcessingTime := s.totalProcessingTime + dt
               completed := s.completed + 1
               settled := settleRef s.settled j.jobRef Settle.resolvedOk }
  | .failBegin i =>
    match s.executing[i]? with
    | none => s
    | some j =>
      if j.retries < cfg.maxRetries then
        { s with executing := s.executing.eraseIdx i
                 delaying := s.delaying ++ [{ j with retries := j.retries + 1 }] }
      else s
  | .failRequeue i =>
    match s.delaying[i]? with
    | none => s
    | some j =>
      { s with delaying := s.delaying.eraseIdx i
               queue := j :: s.queue
               requeueLog := s.requeueLog ++ [j.jobRef] }
  | .failTerminal i =>
    match s.executing[i]? with
    | none => s
    | some j =>
      if j.retries < cfg.maxRetries then s
      else
        { s with executing := s.executing.eraseIdx i
                 failed := s.failed + 1
                 settled := settleRef s.settled j.jobRef Settle.rejectedErr }
  | .dedupCleanup k =>
    match lookupKey s.dedupMap k with
    | none => s
    | some r =>
      if (s.settled.find? (fun p => p.1 = r)).isSome then
        { s with dedupMap := mapDel s.dedupMap k }
      else s
  | .clearAll =>
    { s with settled := s.queue.foldl
               (fun acc j => settleRef acc j.jobRef Settle.rejectedCleared)
               s.settled
             queue := []
             dedupMap := [] }

/-- Run the machine from the freshly constructed queue. -/
def runSteps (cfg : QueueConfig) (steps : List QStep) : QState :=
  steps.foldl (applyStep cfg) initQ

/-- All live job objects: queued, executing, or waiting out a retry delay. -/
def allJobs (s : QState) : List QueueJob :=
  s.queue ++ s.executing ++ s.delaying

/-- The live job objects for one key. -/
def inFlight (s : QState) (k : String) : List QueueJob :=
  (allJobs s).filter (fun j => j.id = k)

/-- The promise references of the jobs ever created for key `k`. -/
def createdFor (s : QState) (k : String) : List Nat :=
  (s.createdLog.filter (fun p => p.1 = k)).map (fun p => p.2)

/-- The `task()` invocations of the jobs created for key `k`. -/
def invokedFor (s : QState) (k : String) : List Nat :=
  s.invokedLog.filter (fun r => decide ((k, r) ∈ s.createdLog))

/-- The outcome a caller of `enqueue` observes: the settlement, if any, of
the promise it received. -/
def observes (s : QState) (c : Nat) : Option Settle :=
  ((s.attached.find? (fun p => p.1 = c)).map (fun p => p.2)).bind
    (fun r => (s.settled.find? (fun p => p.1 = r)).map (fun p => p.2))

/-- The `(key, promise reference)` pairs of the live job objects. -/
def jobPairs (s : QState) : List (String × Nat) :=
  (allJobs s).map (fun j => (j.id, j.jobRef))

/-- The deduplication invariant of the queue machine, preserved by every
step except `clear()` when deduplication is enabled: promise references are
allocated fresh; every map entry and every live job was logged at creation;
every live job is registered in the dedup map under its key and its promise
is unsettled; no promise reference is created twice and no two live jobs
share one; a created job's promise is settled or its map entry is still
present; and each invocation of a task belongs to a created job, the
total number of invocations of a job being bounded by its creation plus
its retry re-enqueues. -/
structure QInv (s : QState) : Prop where
  createdLt : ∀ p ∈ s.createdLog, p.2 < s.nextRef
  settledLt : ∀ p ∈ s.settled, p.1 < s.nextRef
  mapSub : ∀ p ∈ s.dedupMap, p ∈ s.createdLog
  jobsSub : ∀ p ∈ jobPairs s, p ∈ s.createdLog
  jobMap : ∀ p ∈ jobPairs s, lookupKey s.dedupMap p.1 = some p.2
  jobUnsettled : ∀ p ∈ jobPairs s,
    s.settled.find? (fun q => q.1 = p.2) = none
  createdCnt : ∀ r : Nat, (s.createdLog.map Prod.snd).count r ≤ 1
  jobCnt : ∀ r : Nat, ((jobPairs s).map Prod.snd).count r ≤ 1
  createdLive : ∀ p ∈ s.createdLog,
    (s.settled.find? (fun q => q.1 = p.2)).isSome = true ∨
      lookupKey s.dedupMap p.1 = some p.2
  invokedSub : ∀ r ∈ s.invokedLog, ∃ k, (k, r) ∈ s.createdLog
  invokedBound : ∀ r : Nat,
    (s.queue.map (fun j => j.jobRef)).count r + s.invokedLog.count r ≤
      (s.createdLog.map Prod.snd).count r + s.requeueLog.count r

/-- JS number results of the statistics arithmetic: `NaN`, `Infinity`, or a
finite rational. -/
inductive JSNum where
  | nan : JSNum
  | inf : JSNum
  | num : ℚ → JSNum
deriving DecidableEq

/-- JS division of the (integral, non-negative) statistics counters:
division by zero gives `NaN` on a zero numerator and `Infinity` otherwise. -/
def jsDivNat (a b : Nat) : JSNum :=
  if b = 0 then (if a = 0 then JSNum.nan else JSNum.inf)
  else JSNum.num ((a : ℚ) / (b : ℚ))

/-- JS `Math.round` (half away from zero is half up for the non-negative
values arising here); `NaN` and `Infinity` round to themselves. -/
def jsRound : JSNum → JSNum
  | JSNum.nan => JSNum.nan
  | JSNum.inf => JSNum.inf
  | JSNum.num q => JSNum.num ((⌊q + 1/2⌋ : ℤ) : ℚ)

/-- The record returned by `AsyncQueue.getStats()`. -/
structure QueueStats where
  pending : Nat
  processing : Nat
  completed : Nat
  failed : Nat
  averageProcessingTime : JSNum
  totalProcessed : Nat
deriving DecidableEq

/-- `AsyncQueue.getStats()`: `totalProcessed = completed + failed`, and
`averageProcessingTime = totalProcessed > 0 ?
totalProcessingTime / completed : 0`, rounded. -/
def getStats (s : QState) : QueueStats :=
  let totalProcessed := s.completed + s.failed
  let averageProcessingTime :=
    if totalProcessed > 0 then jsDivNat s.totalProcessingTime s.completed
    else JSNum.num 0
  { pending := s.queue.length
    processing := procCount s
    completed := s.completed
    failed := s.failed
    averageProcessingTime := jsRound averageProcessingTime
    totalProcessed := totalProcessed }

/-- Configuration from `new AsyncQueue()` with no overrides:
concurrency 5, 3 retries, 1000 ms delay, deduplication on. -/
def cfgDefault : QueueConfig :=
  mkQueueConfig (PartialQueueConfig.mk none none none none)

/-- A queue constructed with `maxRetries: 1` (one worker, 1 ms delay). -/
def cfgOneRetry : QueueConfig :=
  mkQueueConfig (PartialQueueConfig.mk (some 1) (some 1) (some 1) none)

/-- A queue constructed with `concurrency: 2` and the default `maxRetries`
of 3. -/
def cfgTwoWorkers : QueueConfig :=
  mkQueueConfig (PartialQueueConfig.mk (some 2) none (some 10) none)

/-- A schedule in which a job for `"k"` starts executing, `clear()` runs,
and a second `enqueue` for `"k"` arrives while the first job is still
executing. -/
def clearTrace : List QStep :=
  [QStep.enqueue "k", QStep.dispatch, QStep.clearAll, QStep.enqueue "k"]

/-- A schedule driving one always-failing job to terminal failure under
`cfgOneRetry`: one attempt, one retry, exhaustion. -/
def nanTrace : List QStep :=
  [QStep.enqueue "k", QStep.dispatch, QStep.failBegin 0, QStep.failRequeue 0,
   QStep.dispatch, QStep.failTerminal 0]

/-- A schedule in which two callers join the job for `"k"` and its task
fails three times, leaving the job executing with its retry counter at the
maximum of 3. -/
def exhaustTrace : List QStep :=
  [QStep.enqueue "k", QStep.enqueue "k", QStep.dispatch,
   QStep.failBegin 0, QStep.failRequeue 0, QStep.dispatch,
   QStep.failBegin 0, QStep.failRequeue 0, QStep.dispatch,
   QStep.failBegin 0, QStep.failRequeue 0, QStep.dispatch]

/-- Ten concurrent `enqueue("k", work)` calls followed by the dispatch that
starts the single shared job. -/
def dedupTrace : List QStep :=
  List.replicate 10 (QStep.enqueue "k") ++ [QStep.dispatch]

/-- Two callers join the job for `"k"` and its first attempt starts. -/
def retryTrace : List QStep :=
  [QStep.enqueue "k", QStep.enqueue "k", QStep.dispatch]

end AQ

namespace RL

/-- On an empty store, `isAllowed` creates the identity's window, but
`cleanupOldEntries` immediately deletes it again (both timestamp lists are
empty), so the request is admitted with an empty store and `recordRequest`
finds no window to append to. -/
theorem handleRequest_nil (cfg : RateLimiterConfig) (now : Nat) (k : String)
    (hb : 0 < cfg.burstMaxRequests) (hm : 0 < cfg.maxRequests) :
    handleRequest cfg now k [] =
      ([], { allowed := true, retryAfter := none }) := by
  have hb' : ¬ (0 ≥ cfg.burstMaxRequests) := by omega
  have hm' : ¬ (0 ≥ cfg.maxRequests) := by omega
  simp [handleRequest, isAllowed, lookup, insert, erase, cleanupOldEntries,
    filteredWindow, recordRequest, hb', hm']

/-- Against any configuration with positive limits, every request sequence
from the empty store is fully admitted and leaves the store empty. -/
theorem runRequests_all_allowed (cfg : RateLimiterConfig)
    (hb : 0 < cfg.burstMaxRequests) (hm : 0 < cfg.maxRequests) :
    ∀ reqs : List (Nat × String),
      runRequests cfg reqs [] =
        ([], reqs.map (fun _ => { allowed := true, retryAfter := none })) := by
  intro reqs
  induction reqs with
  | nil => rfl
  | cons q rest ih =>
    obtain ⟨now, k⟩ := q
    simp [runRequests, handleRequest_nil cfg now k hb hm, ih]

end RL

/-- C1.  The claim states that from an empty limiter store, `burstMax`
requests of one identity within one burst window are all admitted, the next
request in the window is denied with `retryAfter > 0`, and each admission
appends its timestamp to both windows.  In the code, `cleanupOldEntries`
deletes the freshly created (still empty) window from the store before
`recordRequest` runs, so no timestamp is ever recorded: under the
production configuration (burst maximum 5 per 10000 ms) every request
sequence of a single identity is admitted in full — the sixth request of
the claim's scenario included — and the store stays empty. -/
theorem c1_limiter_never_denies :
    ∀ reqs : List (Nat × String),
      RL.runRequests RL.prodConfig reqs [] =
        ([], reqs.map (fun _ => { allowed := true, retryAfter := none })) :=
  RL.runRequests_all_allowed RL.prodConfig (by decide) (by decide)

namespace LRU

/-- `set` always leaves the written entry at the head of the recency list. -/
theorem set_entries_shape {T : Type} (s : CacheState T) (k : String) (v : T)
    (now : Nat) :
    ∃ t, (set now k v s).entries = CacheEntry.mk k v now :: t := by
  unfold set
  split
  · exact ⟨_, rfl⟩
  · exact ⟨_, rfl⟩

/-- `set` does not touch the hit counter. -/
theorem set_hits {T : Type} (s : CacheState T) (k : String) (v : T)
    (now : Nat) : (set now k v s).hits = s.hits := by
  unfold set
  split
  · rfl
  · unfold removeLRU
    split
    · split <;> rfl
    · rfl

/-- `set` does not change the TTL. -/
theorem set_ttl {T : Type} (s : CacheState T) (k : String) (v : T)
    (now : Nat) : (set now k v s).ttl = s.ttl := by
  unfold set
  split
  · rfl
  · unfold removeLRU
    split
    · split <;> rfl
    · rfl

/-- Removing a key's node makes the key unfindable. -/
theorem findEntry_removeKey_self {T : Type} (l : List (CacheEntry T))
    (k : String) : findEntry (removeKey l k) k = none := by
  simp [findEntry, removeKey, List.find?_eq_none]

/-- A key absent before removal of another key stays absent. -/
theorem findEntry_removeKey_of_none {T : Type} (l : List (CacheEntry T))
    (k k₂ : String) (h : findEntry l k₂ = none) :
    findEntry (removeKey l k) k₂ = none := by
  simp only [findEntry, removeKey, List.find?_eq_none] at h ⊢
  intro x hx
  exact h x (List.mem_of_mem_filter hx)

/-- On a full cache, `set` of a fresh key evicts the tail and inserts at
the head. -/
theorem set_of_none {T : Type} (s : CacheState T) (k : String) (v : T)
    (now : Nat) (last : CacheEntry T)
    (hfresh : findEntry s.entries k = none)
    (hfull : s.entries.length ≥ s.capacity)
    (hlast : s.entries.getLast? = some last) :
    set now k v s =
      { s with entries := CacheEntry.mk k v now :: s.entries.dropLast
               evictions := s.evictions + 1 } := by
  unfold set
  rw [hfresh]
  dsimp only
  rw [if_pos hfull]
  unfold removeLRU
  rw [hlast]

/-- With pairwise distinct keys, the list is a permutation of the found
node consed onto the list with the node's key removed. -/
theorem perm_cons_removeKey {T : Type} (l : List (CacheEntry T)) (k : String)
    (e : CacheEntry T) (hnodup : (l.map (fun x => x.key)).Nodup)
    (hfind : findEntry l k = some e) : l.Perm (e :: removeKey l k) := by
  induction l with
  | nil => simp [findEntry] at hfind
  | cons a t ih =>
    by_cases ha : a.key = k
    · rw [findEntry, List.find?_cons_of_pos _ (by simpa using ha)] at hfind
      obtain rfl : a = e := by injection hfind
      have hhead : a.key ∉ t.map (fun x => x.key) := by
        have := hnodup
        simp only [List.map_cons, List.nodup_cons] at this
        exact this.1
      have hrest : removeKey (a :: t) k = t := by
        simp only [removeKey, List.filter_cons]
        rw [if_neg (by simp [ha])]
        apply List.filter_eq_self.mpr
        intro x hx
        simp only [decide_eq_true_eq]
        intro hxk
        exact hhead (List.mem_map.mpr ⟨x, hx, hxk.trans ha.symm⟩)
      rw [hrest]
    · rw [findEntry, List.find?_cons_of_neg _ (by simpa using ha)] at hfind
      have hnodup' : (t.map (fun x => x.key)).Nodup := by
        simp only [List.map_cons, List.nodup_cons] at hnodup
        exact hnodup.2
      have hperm := ih hnodup' hfind
      have hrest : removeKey (a :: t) k = a :: removeKey t k := by
        simp [removeKey, List.filter_cons, ha]
      rw [hrest]
      exact List.Perm.trans (hperm.cons a) (List.Perm.swap e a _)

end LRU

/-- C8.  `set(k, v)` immediately followed by `get(k)` (same clock reading,
so no time has passed) returns `v`, increments the hit counter by one, and
leaves `k` at the most-recently-used (head) position, for every cache
state, key and value. -/
theorem c8_set_then_get {T : Type} (s : LRU.CacheState T) (k : String)
    (v : T) (now : Nat) :
    (LRU.get now k (LRU.set now k v s)).1 = some v ∧
    (LRU.get now k (LRU.set now k v s)).2.hits = s.hits + 1 ∧
    ((LRU.get now k (LRU.set now k v s)).2.entries.head?).map
      (fun e => e.key) = some k := by
  obtain ⟨t, ht⟩ := LRU.set_entries_shape s k v now
  have hhits := LRU.set_hits s k v now
  unfold LRU.get LRU.findEntry
  rw [ht, List.find?_cons_of_pos _ (by simp)]
  simp [LRU.isExpired, LRU.moveToFront, hhits]

/-- C6 (counterexample).  With capacity 1 and a TTL of 1 second, an entry
written at time 0 and read at time 1000 has age exactly equal to the TTL;
the claim requires `get` to return absent, remove the entry and record a
miss and an expiration, but the code's strict `>` comparison treats the
entry as fresh: the value is returned and a hit is recorded. -/
theorem c6_counterexample :
    (LRU.set 0 "a" (42 : Nat) (LRU.initCache Nat 1 1)).ttl = 1000 - 0 ∧
    (LRU.get 1000 "a" (LRU.set 0 "a" (42 : Nat) (LRU.initCache Nat 1 1))).1 =
      some 42 ∧
    (LRU.get 1000 "a"
      (LRU.set 0 "a" (42 : Nat) (LRU.initCache Nat 1 1))).2.expirations = 0 ∧
    (LRU.get 1000 "a"
      (LRU.set 0 "a" (42 : Nat) (LRU.initCache Nat 1 1))).2.hits = 1 := by
  decide

/-- C6 (amended).  An entry is visible to readers exactly while
`now - timestamp ≤ TTL` (the code expires on the strict comparison
`now - timestamp > ttl`, so an entry whose age equals the TTL is still
served):  `get` on an entry with age strictly greater than the TTL returns
absent, removes the entry, and records both a miss and an expiration,
while `get` on an entry with age at most the TTL returns its value and
records a hit. -/
theorem c6_ttl_visibility {T : Type} (s : LRU.CacheState T) (k : String)
    (now : Nat) (e : LRU.CacheEntry T)
    (hfind : LRU.findEntry s.entries k = some e) :
    (s.ttl < now - e.timestamp →
      (LRU.get now k s).1 = none ∧
      (LRU.get now k s).2.misses = s.misses + 1 ∧
      (LRU.get now k s).2.expirations = s.expirations + 1 ∧
      LRU.findEntry (LRU.get now k s).2.entries k = none) ∧
    (now - e.timestamp ≤ s.ttl →
      (LRU.get now k s).1 = some e.value ∧
      (LRU.get now k s).2.hits = s.hits + 1) := by
  constructor
  · intro hexp
    unfold LRU.get
    rw [hfind]
    simp [LRU.isExpired, hexp, LRU.findEntry_removeKey_self]
  · intro hfresh
    unfold LRU.get
    rw [hfind]
    simp [LRU.isExpired, Nat.not_lt.mpr hfresh]

/-- C6 (witness). -/
theorem c6_ttl_visibility_witness :
    (LRU.findEntry
      (LRU.set 0 "a" (42 : Nat) (LRU.initCache Nat 1 1)).entries "a" =
      some (LRU.CacheEntry.mk "a" 42 0)) ∧
    ((LRU.get 1001 "a" (LRU.set 0 "a" (42 : Nat) (LRU.initCache Nat 1 1))).1 =
        none ∧
      (LRU.get 1001 "a"
        (LRU.set 0 "a" (42 : Nat) (LRU.initCache Nat 1 1))).2.misses = 0 + 1 ∧
      (LRU.get 1001 "a"
        (LRU.set 0 "a" (42 : Nat)
          (LRU.initCache Nat 1 1))).2.expirations = 0 + 1 ∧
      LRU.findEntry
        (LRU.get 1001 "a"
          (LRU.set 0 "a" (42 : Nat) (LRU.initCache Nat 1 1))).2.entries "a" =
        none) ∧
    ((LRU.get 1000 "a" (LRU.set 0 "a" (42 : Nat) (LRU.initCache Nat 1 1))).1 =
        some 42 ∧
      (LRU.get 1000 "a"
        (LRU.set 0 "a" (42 : Nat) (LRU.initCache Nat 1 1))).2.hits = 0 + 1) :=
  ⟨by decide,
    (c6_ttl_visibility (LRU.set 0 "a" (42 : Nat) (LRU.initCache Nat 1 1))
      "a" 1001 (LRU.CacheEntry.mk "a" 42 0) (by decide)).1 (by decide),
    (c6_ttl_visibility (LRU.set 0 "a" (42 : Nat) (LRU.initCache Nat 1 1))
      "a" 1000 (LRU.CacheEntry.mk "a" 42 0) (by decide)).2 (by decide)⟩

/-- C7 (counterexample).  At capacity 1 the protection clause of the claim
fails: the cache holds only `"a"`, `get("a")` makes `"a"` most recently
used, yet inserting the fresh key `"b"` still evicts `"a"` itself — there
is no different key to evict.  The claim as stated quantifies over every
capacity at least 1, so this refutes it. -/
theorem c7_counterexample :
    LRU.findEntry
      (LRU.set 0 "b" (2 : Nat)
        ((LRU.get 0 "a"
          (LRU.set 0 "a" (1 : Nat) (LRU.initCache Nat 1 60))).2)).entries
      "a" = none ∧
    (LRU.set 0 "b" (2 : Nat)
      ((LRU.get 0 "a"
        (LRU.set 0 "a" (1 : Nat) (LRU.initCache Nat 1 60))).2)).evictions =
      1 ∧
    (LRU.get 0 "a"
      (LRU.set 0 "a" (1 : Nat) (LRU.initCache Nat 1 60))).2.hits = 1 := by
  decide

/-- C7 (amended).  For a cache with pairwise-distinct keys filled to
exactly `capacity` entries: (1) with `capacity ≥ 1`, `set` of a fresh key
inserts it at the head, removes exactly the least-recently-used (tail)
entry, increments the eviction counter by one, and keeps every other key
present; (2) with `capacity ≥ 2`, a `get(k)` of a resident unexpired key
immediately before the insertion moves `k` to the most-recently-used
position, so `k` survives the eviction caused by inserting a fresh key. -/
theorem c7_lru_eviction {T : Type} (s : LRU.CacheState T) (now : Nat)
    (hnodup : (s.entries.map (fun e => e.key)).Nodup)
    (hlen : s.entries.length = s.capacity) :
    (∀ (k : String) (v : T) (last : LRU.CacheEntry T),
      1 ≤ s.capacity → LRU.findEntry s.entries k = none →
      s.entries.getLast? = some last →
      (LRU.set now k v s).entries =
        LRU.CacheEntry.mk k v now :: s.entries.dropLast ∧
      (LRU.set now k v s).evictions = s.evictions + 1 ∧
      LRU.findEntry (LRU.set now k v s).entries last.key = none ∧
      (∀ e ∈ s.entries.dropLast,
        (LRU.findEntry (LRU.set now k v s).entries e.key).isSome = true)) ∧
    (∀ (k k₂ : String) (e : LRU.CacheEntry T) (v₂ : T),
      2 ≤ s.capacity → LRU.findEntry s.entries k = some e →
      now - e.timestamp ≤ s.ttl → LRU.findEntry s.entries k₂ = none →
      ¬ k₂ = k →
      (LRU.findEntry
        (LRU.set now k₂ v₂ ((LRU.get now k s).2)).entries k).isSome =
        true) := by
  constructor
  · intro k v last hcap hfresh hlast
    have hset := LRU.set_of_none s k v now last hfresh (le_of_eq hlen.symm)
      hlast
    rw [hset]
    dsimp only
    refine ⟨rfl, rfl, ?_, ?_⟩
    · have hlastmem : last ∈ s.entries := List.mem_of_getLast?_eq_some hlast
      have hlk : ¬ last.key = k := by
        have := List.find?_eq_none.mp hfresh last hlastmem
        simpa using this
      unfold LRU.findEntry
      rw [List.find?_cons_of_neg _ (by simpa using fun h => hlk h.symm)]
      have hdecomp : s.entries.dropLast ++ [last] = s.entries :=
        List.dropLast_append_getLast? last hlast
      have hnotin : last.key ∉ s.entries.dropLast.map (fun x => x.key) := by
        have : ((s.entries.dropLast ++ [last]).map
            (fun x => x.key)).Nodup := by rw [hdecomp]; exact hnodup
        simp only [List.map_append, List.map_cons, List.map_nil,
          List.nodup_append] at this
        intro hmem
        exact this.2.2 hmem (by simp)
      apply List.find?_eq_none.mpr
      intro x hx
      simp only [decide_eq_true_eq]
      intro hxk
      exact hnotin (List.mem_map.mpr ⟨x, hx, hxk⟩)
    · intro e he
      have hemem : e ∈ s.entries := by
        have hdecomp : s.entries.dropLast ++ [last] = s.entries :=
          List.dropLast_append_getLast? last hlast
        rw [← hdecomp]
        exact List.mem_append_left _ he
      have hek : ¬ e.key = k := by
        have := List.find?_eq_none.mp hfresh e hemem
        simpa using this
      unfold LRU.findEntry
      rw [List.find?_cons_of_neg _ (by simpa using fun h => hek h.symm)]
      apply List.find?_isSome.mpr
      exact ⟨e, he, by simp⟩
  · intro k k₂ e v₂ hcap hk hunexp hk₂ hne
    have hek : e.key = k := by
      have := List.find?_some hk
      simpa using this
    have hget : (LRU.get now k s).2 =
        { s with hits := s.hits + 1
                 entries := e :: LRU.removeKey s.entries k } := by
      unfold LRU.get
      rw [hk]
      dsimp only
      rw [if_neg (show ¬ (LRU.isExpired now s.ttl e = true) by
        simp [LRU.isExpired, Nat.not_lt.mpr hunexp])]
      simp [LRU.moveToFront, hek]
    have hperm := LRU.perm_cons_removeKey s.entries k e hnodup hk
    have hlen₂ : (e :: LRU.removeKey s.entries k).length = s.capacity := by
      rw [← hperm.length_eq]; exact hlen
    have hrkne : LRU.removeKey s.entries k ≠ [] := by
      intro hnil
      rw [hnil] at hlen₂
      simp at hlen₂
      omega
    have hfind₂ : LRU.findEntry (e :: LRU.removeKey s.entries k) k₂ =
        none := by
      unfold LRU.findEntry
      rw [List.find?_cons_of_neg _ (by simp [hek]; exact fun h => hne h.symm)]
      exact LRU.findEntry_removeKey_of_none s.entries k k₂ hk₂
    obtain ⟨lastx, hlastx⟩ : ∃ x, (e :: LRU.removeKey s.entries k).getLast? =
        some x := by
      cases h : (e :: LRU.removeKey s.entries k).getLast? with
      | none => simp at h
      | some x => exact ⟨x, rfl⟩
    have hdl : (e :: LRU.removeKey s.entries k).dropLast =
        e :: (LRU.removeKey s.entries k).dropLast := by
      cases hrk : LRU.removeKey s.entries k with
      | nil => exact absurd hrk hrkne
      | cons b t => rfl
    have hset₂ := LRU.set_of_none ((LRU.get now k s).2) k₂ v₂ now lastx
      (by rw [hget]; exact hfind₂)
      (by rw [hget]; exact le_of_eq hlen₂.symm)
      (by rw [hget]; exact hlastx)
    rw [hset₂, hget]
    dsimp only
    rw [hdl]
    unfold LRU.findEntry
    rw [List.find?_cons_of_neg _ (by simpa using fun h => hne h)]
    rw [List.find?_cons_of_pos _ (by simpa using hek)]
    rfl

/-- C7 (witness): a capacity-2 cache holding `"b"` (MRU) and `"a"` (LRU);
part 1 with fresh key `"c"` evicting `"a"`, part 2 with `get("a")`
protecting `"a"` so the insertion of `"c"` evicts `"b"` instead. -/
theorem c7_lru_eviction_witness :
    (((LRU.set 1 "b" (2 : Nat)
        (LRU.set 0 "a" (1 : Nat)
          (LRU.initCache Nat 2 60))).entries.map (fun e => e.key)).Nodup ∧
      (LRU.set 1 "b" (2 : Nat)
        (LRU.set 0 "a" (1 : Nat) (LRU.initCache Nat 2 60))).entries.length =
        (LRU.set 1 "b" (2 : Nat)
          (LRU.set 0 "a" (1 : Nat) (LRU.initCache Nat 2 60))).capacity) ∧
    ((LRU.set 1 "c" (3 : Nat)
        (LRU.set 1 "b" (2 : Nat)
          (LRU.set 0 "a" (1 : Nat) (LRU.initCache Nat 2 60)))).entries =
      LRU.CacheEntry.mk "c" 3 1 ::
        (LRU.set 1 "b" (2 : Nat)
          (LRU.set 0 "a" (1 : Nat)
            (LRU.initCache Nat 2 60))).entries.dropLast ∧
      (LRU.set 1 "c" (3 : Nat)
        (LRU.set 1 "b" (2 : Nat)
          (LRU.set 0 "a" (1 : Nat) (LRU.initCache Nat 2 60)))).evictions =
        0 + 1 ∧
      LRU.findEntry
        (LRU.set 1 "c" (3 : Nat)
          (LRU.set 1 "b" (2 : Nat)
            (LRU.set 0 "a" (1 : Nat) (LRU.initCache Nat 2 60)))).entries
        (LRU.CacheEntry.mk "a" (1 : Nat) 0).key = none ∧
      (∀ e ∈ (LRU.set 1 "b" (2 : Nat)
          (LRU.set 0 "a" (1 : Nat)
            (LRU.initCache Nat 2 60))).entries.dropLast,
        (LRU.findEntry
          (LRU.set 1 "c" (3 : Nat)
            (LRU.set 1 "b" (2 : Nat)
              (LRU.set 0 "a" (1 : Nat)
                (LRU.initCache Nat 2 60)))).entries e.key).isSome = true)) ∧
    (LRU.findEntry
      (LRU.set 1 "c" (3 : Nat)
        ((LRU.get 1 "a"
          (LRU.set 1 "b" (2 : Nat)
            (LRU.set 0 "a" (1 : Nat)
              (LRU.initCache Nat 2 60)))).2)).entries "a").isSome = true :=
  ⟨⟨by decide, by decide⟩,
    (c7_lru_eviction (LRU.set 1 "b" (2 : Nat)
        (LRU.set 0 "a" (1 : Nat) (LRU.initCache Nat 2 60))) 1
      (by decide) (by decide)).1 "c" 3 (LRU.CacheEntry.mk "a" 1 0)
      (by decide) (by decide) (by decide),
    (c7_lru_eviction (LRU.set 1 "b" (2 : Nat)
        (LRU.set 0 "a" (1 : Nat) (LRU.initCache Nat 2 60))) 1
      (by decide) (by decide)).2 "a" "c" (LRU.CacheEntry.mk "a" 1 0) 3
      (by decide) (by decide) (by decide) (by decide) (by decide)⟩

namespace AQ

/-- Every step of the queue machine preserves the bound of the `processing`
counter by the configured concurrency: `processNext` dispatches only while
`processing < concurrency`, and every other event only moves or removes
running jobs. -/
theorem procCount_le_step (cfg : QueueConfig) (s : QState) (st : QStep)
    (h : procCount s ≤ cfg.concurrency) :
    procCount (applyStep cfg s st) ≤ cfg.concurrency := by
  cases st with
  | enqueue k =>
    unfold applyStep
    cases hl : lookupKey s.dedupMap k with
    | none => simpa [hl, procCount] using h
    | some r =>
      by_cases hdd : cfg.deduplication = true <;>
        simp [hl, hdd, procCount] <;> exact h
  | dispatch =>
    unfold applyStep
    by_cases hge : procCount s ≥ cfg.concurrency
    · rw [if_pos hge]; exact h
    · rw [if_neg hge]
      cases hq : s.queue with
      | nil => exact h
      | cons j rest =>
        simp only [procCount] at h ⊢
        simp only [List.length_append, List.length_cons, List.length_nil]
        simp only [procCount, ge_iff_le, not_le] at hge
        omega
  | completeOk i dt =>
    cases hj : s.executing[i]? with
    | none => simp [applyStep, hj]; exact h
    | some j =>
      have hle := List.length_eraseIdx_le s.executing i
      simp [applyStep, hj, procCount] at h ⊢
      omega
  | failBegin i =>
    cases hj : s.executing[i]? with
    | none => simp [applyStep, hj]; exact h
    | some j =>
      by_cases hr : j.retries < cfg.maxRetries
      · have hi : i < s.executing.length := by
          rcases List.getElem?_eq_some_iff.mp hj with ⟨hlt, _⟩
          exact hlt
        have hlen := List.length_eraseIdx_of_lt hi
        simp [applyStep, hj, hr, procCount] at h ⊢
        omega
      · simp [applyStep, hj, hr]; exact h
  | failRequeue i =>
    cases hj : s.delaying[i]? with
    | none => simp [applyStep, hj]; exact h
    | some j =>
      have hle := List.length_eraseIdx_le s.delaying i
      simp [applyStep, hj, procCount] at h ⊢
      omega
  | failTerminal i =>
    cases hj : s.executing[i]? with
    | none => simp [applyStep, hj]; exact h
    | some j =>
      by_cases hr : j.retries < cfg.maxRetries
      · simp [applyStep, hj, hr]; exact h
      · have hle := List.length_eraseIdx_le s.executing i
        simp [applyStep, hj, hr, procCount] at h ⊢
        omega
  | dedupCleanup k =>
    cases hl : lookupKey s.dedupMap k with
    | none => simp [applyStep, hl]; exact h
    | some r =>
      by_cases hs : (s.settled.find? (fun p => p.1 = r)).isSome = true <;>
        simp [applyStep, hl, hs, procCount] <;> exact h
  | clearAll =>
    simpa [applyStep, procCount] using h

end AQ

/-- C4.  In every reachable state of the queue — under every configuration
and every schedule of enqueues, dispatches, completions, retries, terminal
failures, cleanups and clears — the number of simultaneously running jobs
(the `processing` counter) never exceeds the configured concurrency. -/
theorem c4_concurrency_cap (cfg : AQ.QueueConfig) (steps : List AQ.QStep) :
    AQ.procCount (AQ.runSteps cfg steps) ≤ cfg.concurrency := by
  have hgen : ∀ (l : List AQ.QStep) (s : AQ.QState),
      AQ.procCount s ≤ cfg.concurrency →
      AQ.procCount (l.foldl (AQ.applyStep cfg) s) ≤ cfg.concurrency := by
    intro l
    induction l with
    | nil => intro s h; exact h
    | cons st rest ih =>
      intro s h
      exact ih _ (AQ.procCount_le_step cfg s st h)
  exact hgen steps AQ.initQ (by simp [AQ.procCount, AQ.initQ])

/-- C9.  The claim states that `getStats()` always reports a well-defined
finite `averageProcessingTime`, the division being guarded.  The guard
tests `totalProcessed = completed + failed > 0` but divides by `completed`:
after one always-failing job is driven to terminal failure (reachable with
`maxRetries: 1` in six steps), `completed = 0` and `failed = 1`, and the
reported average is the JS result `0 / 0 = NaN`. -/
theorem c9_average_time_nan :
    (AQ.getStats (AQ.runSteps AQ.cfgOneRetry AQ.nanTrace)).completed = 0 ∧
    (AQ.getStats (AQ.runSteps AQ.cfgOneRetry AQ.nanTrace)).failed = 1 ∧
    (AQ.getStats (AQ.runSteps AQ.cfgOneRetry AQ.nanTrace)).totalProcessed >
      0 ∧
    (AQ.getStats
      (AQ.runSteps AQ.cfgOneRetry AQ.nanTrace)).averageProcessingTime =
      AQ.JSNum.nan := by
  decide

/-- C10.  Constructing the queue with explicit falsy configuration values
silently substitutes the defaults: `concurrency: 0` becomes 5,
`maxRetries: 0` becomes 3, `retryDelay: 0` becomes 1000 ms, and
deduplication is enabled for every value other than an explicit `false`. -/
theorem c10_falsy_defaults :
    AQ.mkQueueConfig
        (AQ.PartialQueueConfig.mk (some 0) (some 0) (some 0) none) =
      AQ.QueueConfig.mk 5 3 1000 true ∧
    (∀ c : AQ.PartialQueueConfig, c.concurrency = some 0 →
      (AQ.mkQueueConfig c).concurrency = 5) ∧
    (∀ c : AQ.PartialQueueConfig, c.maxRetries = some 0 →
      (AQ.mkQueueConfig c).maxRetries = 3) ∧
    (∀ c : AQ.PartialQueueConfig, c.retryDelay = some 0 →
      (AQ.mkQueueConfig c).retryDelay = 1000) ∧
    (∀ c : AQ.PartialQueueConfig,
      (AQ.mkQueueConfig c).deduplication = true ↔
        ¬ c.deduplication = some false) := by
  refine ⟨by decide, ?_, ?_, ?_, ?_⟩
  · intro c h
    simp [AQ.mkQueueConfig, AQ.jsOrNat, h]
  · intro c h
    simp [AQ.mkQueueConfig, AQ.jsOrNat, h]
  · intro c h
    simp [AQ.mkQueueConfig, AQ.jsOrNat, h]
  · intro c
    simp [AQ.mkQueueConfig]

/-- C10 (witness). -/
theorem c10_falsy_defaults_witness :
    (AQ.PartialQueueConfig.mk (some 0) (some 0) (some 0)
        (some true)).concurrency = some 0 ∧
    (AQ.mkQueueConfig (AQ.PartialQueueConfig.mk (some 0) (some 0) (some 0)
        (some true))).concurrency = 5 ∧
    (AQ.mkQueueConfig (AQ.PartialQueueConfig.mk (some 0) (some 0) (some 0)
        (some true))).maxRetries = 3 ∧
    (AQ.mkQueueConfig (AQ.PartialQueueConfig.mk (some 0) (some 0) (some 0)
        (some true))).retryDelay = 1000 ∧
    ((AQ.mkQueueConfig (AQ.PartialQueueConfig.mk (some 0) (some 0) (some 0)
        (some true))).deduplication = true ↔
      ¬ (AQ.PartialQueueConfig.mk (some 0) (some 0) (some 0)
          (some true)).deduplication = some false) :=
  ⟨rfl,
    c10_falsy_defaults.2.1 _ rfl,
    c10_falsy_defaults.2.2.1 _ rfl,
    c10_falsy_defaults.2.2.2.1 _ rfl,
    c10_falsy_defaults.2.2.2.2 _⟩

/-- C5.  For a failing unit of work: (a) on a retryable failure (retry
counter below the maximum) the retry counter is incremented and the *same*
job object is re-enqueued at the front of the queue, with the dedup index,
the failed counter and all promise settlements untouched; (b) on a failure
with the retry counter at the maximum, the failed counter increments by
exactly one — independent of how many callers are attached — and every
caller attached to the job's shared promise observes the terminal
`rejectedErr` failure. -/
theorem c5_retry_exhaustion (cfg : AQ.QueueConfig) (s : AQ.QState) (i : Nat)
    (j : AQ.QueueJob) (hij : s.executing[i]? = some j) :
    (j.retries < cfg.maxRetries →
      ((AQ.applyStep cfg (AQ.applyStep cfg s (AQ.QStep.failBegin i))
          (AQ.QStep.failRequeue s.delaying.length)).queue =
        { j with retries := j.retries + 1 } :: s.queue ∧
      (AQ.applyStep cfg (AQ.applyStep cfg s (AQ.QStep.failBegin i))
          (AQ.QStep.failRequeue s.delaying.length)).dedupMap = s.dedupMap ∧
      (AQ.applyStep cfg (AQ.applyStep cfg s (AQ.QStep.failBegin i))
          (AQ.QStep.failRequeue s.delaying.length)).failed = s.failed ∧
      (AQ.applyStep cfg (AQ.applyStep cfg s (AQ.QStep.failBegin i))
          (AQ.QStep.failRequeue s.delaying.length)).settled = s.settled)) ∧
    (¬ j.retries < cfg.maxRetries →
      s.settled.find? (fun p => p.1 = j.jobRef) = none →
      ((AQ.applyStep cfg s (AQ.QStep.failTerminal i)).failed =
        s.failed + 1 ∧
      ∀ c : Nat,
        s.attached.find? (fun p => p.1 = c) = some (c, j.jobRef) →
        AQ.observes (AQ.applyStep cfg s (AQ.QStep.failTerminal i)) c =
          some AQ.Settle.rejectedErr)) := by
  constructor
  · intro hr
    have h1 : AQ.applyStep cfg s (AQ.QStep.failBegin i) =
        { s with executing := s.executing.eraseIdx i
                 delaying := s.delaying ++
                   [{ j with retries := j.retries + 1 }] } := by
      simp [AQ.applyStep, hij, hr]
    rw [h1]
    have h2 := List.getElem?_concat_length s.delaying
      { j with retries := j.retries + 1 }
    simp [AQ.applyStep, h2]
  · intro hr hsettled
    have h1 : AQ.applyStep cfg s (AQ.QStep.failTerminal i) =
        { s with executing := s.executing.eraseIdx i
                 failed := s.failed + 1
                 settled := AQ.settleRef s.settled j.jobRef
                   AQ.Settle.rejectedErr } := by
      simp [AQ.applyStep, hij, hr]
    rw [h1]
    refine ⟨rfl, ?_⟩
    intro c hc
    have h2 : AQ.settleRef s.settled j.jobRef AQ.Settle.rejectedErr =
        s.settled ++ [(j.jobRef, AQ.Settle.rejectedErr)] := by
      unfold AQ.settleRef
      rw [if_neg (by simp [hsettled])]
    unfold AQ.observes
    dsimp only
    rw [hc, h2]
    simp [hsettled]

/-- C5 (witness): under a queue with the default `maxRetries = 3`, part (a)
at the first failed attempt of the job for `"k"` (two attached callers) and
part (b) at its fourth attempt, with the retry counter at 3. -/
theorem c5_retry_exhaustion_witness :
    ((AQ.runSteps AQ.cfgTwoWorkers AQ.retryTrace).executing[0]? =
        some (AQ.QueueJob.mk "k" 0 0) ∧
      (AQ.QueueJob.mk "k" 0 0).retries < AQ.cfgTwoWorkers.maxRetries ∧
      ((AQ.applyStep AQ.cfgTwoWorkers
          (AQ.applyStep AQ.cfgTwoWorkers
            (AQ.runSteps AQ.cfgTwoWorkers AQ.retryTrace)
            (AQ.QStep.failBegin 0))
          (AQ.QStep.failRequeue
            (AQ.runSteps AQ.cfgTwoWorkers
              AQ.retryTrace).delaying.length)).queue =
        AQ.QueueJob.mk "k" 0 (0 + 1) ::
          (AQ.runSteps AQ.cfgTwoWorkers AQ.retryTrace).queue ∧
      (AQ.applyStep AQ.cfgTwoWorkers
          (AQ.applyStep AQ.cfgTwoWorkers
            (AQ.runSteps AQ.cfgTwoWorkers AQ.retryTrace)
            (AQ.QStep.failBegin 0))
          (AQ.QStep.failRequeue
            (AQ.runSteps AQ.cfgTwoWorkers
              AQ.retryTrace).delaying.length)).dedupMap =
        (AQ.runSteps AQ.cfgTwoWorkers AQ.retryTrace).dedupMap ∧
      (AQ.applyStep AQ.cfgTwoWorkers
          (AQ.applyStep AQ.cfgTwoWorkers
            (AQ.runSteps AQ.cfgTwoWorkers AQ.retryTrace)
            (AQ.QStep.failBegin 0))
          (AQ.QStep.failRequeue
            (AQ.runSteps AQ.cfgTwoWorkers
              AQ.retryTrace).delaying.length)).failed =
        (AQ.runSteps AQ.cfgTwoWorkers AQ.retryTrace).failed ∧
      (AQ.applyStep AQ.cfgTwoWorkers
          (AQ.applyStep AQ.cfgTwoWorkers
            (AQ.runSteps AQ.cfgTwoWorkers AQ.retryTrace)
            (AQ.QStep.failBegin 0))
          (AQ.QStep.failRequeue
            (AQ.runSteps AQ.cfgTwoWorkers
              AQ.retryTrace).delaying.length)).settled =
        (AQ.runSteps AQ.cfgTwoWorkers AQ.retryTrace).settled)) ∧
    ((AQ.runSteps AQ.cfgTwoWorkers AQ.exhaustTrace).executing[0]? =
        some (AQ.QueueJob.mk "k" 0 3) ∧
      ¬ (AQ.QueueJob.mk "k" 0 3).retries < AQ.cfgTwoWorkers.maxRetries ∧
      (AQ.runSteps AQ.cfgTwoWorkers AQ.exhaustTrace).settled.find?
        (fun p => p.1 = (AQ.QueueJob.mk "k" 0 3).jobRef) = none ∧
      (AQ.applyStep AQ.cfgTwoWorkers
          (AQ.runSteps AQ.cfgTwoWorkers AQ.exhaustTrace)
          (AQ.QStep.failTerminal 0)).failed =
        (AQ.runSteps AQ.cfgTwoWorkers AQ.exhaustTrace).failed + 1 ∧
      AQ.observes (AQ.applyStep AQ.cfgTwoWorkers
          (AQ.runSteps AQ.cfgTwoWorkers AQ.exhaustTrace)
          (AQ.QStep.failTerminal 0)) 0 = some AQ.Settle.rejectedErr ∧
      AQ.observes (AQ.applyStep AQ.cfgTwoWorkers
          (AQ.runSteps AQ.cfgTwoWorkers AQ.exhaustTrace)
          (AQ.QStep.failTerminal 0)) 1 = some AQ.Settle.rejectedErr) :=
  ⟨⟨by decide, by decide,
    (c5_retry_exhaustion AQ.cfgTwoWorkers
        (AQ.runSteps AQ.cfgTwoWorkers AQ.retryTrace) 0
        (AQ.QueueJob.mk "k" 0 0) (by decide)).1 (by decide)⟩,
   ⟨by decide, by decide, by decide,
    ((c5_retry_exhaustion AQ.cfgTwoWorkers
        (AQ.runSteps AQ.cfgTwoWorkers AQ.exhaustTrace) 0
        (AQ.QueueJob.mk "k" 0 3) (by decide)).2 (by decide) (by decide)).1,
    ((c5_retry_exhaustion AQ.cfgTwoWorkers
        (AQ.runSteps AQ.cfgTwoWorkers AQ.exhaustTrace) 0
        (AQ.QueueJob.mk "k" 0 3) (by decide)).2 (by decide) (by decide)).2
      0 (by decide),
    ((c5_retry_exhaustion AQ.cfgTwoWorkers
        (AQ.runSteps AQ.cfgTwoWorkers AQ.exhaustTrace) 0
        (AQ.QueueJob.mk "k" 0 3) (by decide)).2 (by decide) (by decide)).2
      1 (by decide)⟩⟩

/-- C3 (counterexample).  With deduplication enabled (the default
configuration), the schedule "enqueue `k`; dispatch; `clear()`; enqueue
`k`" is reachable, and in its final state two distinct `PendingJob` objects
for the key `"k"` are simultaneously in flight: `clear()` empties the
whole dedup index even though the first job is still executing, so the
second `enqueue` creates a fresh job instead of attaching. -/
theorem c3_counterexample :
    AQ.cfgDefault.deduplication = true ∧
    (AQ.inFlight (AQ.runSteps AQ.cfgDefault AQ.clearTrace) "k").length = 2 ∧
    (AQ.runSteps AQ.cfgDefault AQ.clearTrace).executing =
      [AQ.QueueJob.mk "k" 0 0] ∧
    (AQ.runSteps AQ.cfgDefault AQ.clearTrace).queue =
      [AQ.QueueJob.mk "k" 1 0] := by
  decide

namespace AQ

theorem lookupKey_eq_none_iff (m : List (String × Nat)) (k : String) :
    lookupKey m k = none ↔ m.find? (fun p => p.1 = k) = none := by
  unfold lookupKey
  cases m.find? (fun p => p.1 = k) <;> simp

theorem mapSet_of_lookup_none (m : List (String × Nat)) (k : String)
    (r : Nat) (h : lookupKey m k = none) : mapSet m k r = m ++ [(k, r)] := by
  unfold mapSet
  simp [(lookupKey_eq_none_iff m k).mp h]

theorem lookupKey_append_single_self (m : List (String × Nat)) (k : String)
    (r : Nat) (h : lookupKey m k = none) :
    lookupKey (m ++ [(k, r)]) k = some r := by
  have h2 := (lookupKey_eq_none_iff m k).mp h
  unfold lookupKey
  rw [List.find?_append, h2]
  simp

theorem lookupKey_append_single_ne (m : List (String × Nat)) (k : String)
    (r : Nat) (k2 : String) (h : ¬ k2 = k) :
    lookupKey (m ++ [(k, r)]) k2 = lookupKey m k2 := by
  unfold lookupKey
  rw [List.find?_append]
  have h3 : ([(k, r)].find? (fun p => p.1 = k2)) = none := by
    simp [show ¬ k = k2 from fun hh => h hh.symm]
  rw [h3]
  cases m.find? (fun p => p.1 = k2) <;> simp

theorem lookupKey_mapDel_ne (m : List (String × Nat)) (k k2 : String)
    (h : ¬ k2 = k) : lookupKey (mapDel m k) k2 = lookupKey m k2 := by
  induction m with
  | nil => rfl
  | cons p t ih =>
    by_cases hp : p.1 = k
    · have hpd : mapDel (p :: t) k = mapDel t k := by
        simp [mapDel, List.filter_cons, hp]
      rw [hpd, ih]
      have : ¬ p.1 = k2 := by rw [hp]; exact fun hh => h hh.symm
      unfold lookupKey
      rw [List.find?_cons_of_neg _ (by simpa using this)]
    · have hpd : mapDel (p :: t) k = p :: mapDel t k := by
        simp [mapDel, List.filter_cons, hp]
      rw [hpd]
      by_cases hp2 : p.1 = k2
      · unfold lookupKey
        rw [List.find?_cons_of_pos _ (by simpa using hp2),
          List.find?_cons_of_pos _ (by simpa using hp2)]
      · unfold lookupKey at ih ⊢
        rw [List.find?_cons_of_neg _ (by simpa using hp2),
          List.find?_cons_of_neg _ (by simpa using hp2)]
        exact ih

theorem mem_mapDel (m : List (String × Nat)) (k : String) (p : String × Nat)
    (h : p ∈ mapDel m k) : p ∈ m :=
  List.mem_of_mem_filter h

theorem find?_settleRef_ne (l : List (Nat × Settle)) (r : Nat) (v : Settle)
    (x : Nat) (h : ¬ x = r) :
    (settleRef l r v).find? (fun p => p.1 = x) =
      l.find? (fun p => p.1 = x) := by
  unfold settleRef
  split
  · rfl
  · rw [List.find?_append]
    have h3 : ([(r, v)].find? (fun p => p.1 = x)) = none := by
      simp [show ¬ r = x from fun hh => h hh.symm]
    rw [h3]
    cases l.find? (fun p => p.1 = x) <;> simp

theorem find?_settleRef_isSome_mono (l : List (Nat × Settle)) (r : Nat)
    (v : Settle) (x : Nat)
    (h : (l.find? (fun p => p.1 = x)).isSome = true) :
    ((settleRef l r v).find? (fun p => p.1 = x)).isSome = true := by
  unfold settleRef
  split
  · exact h
  · rw [List.find?_append]
    cases hl : l.find? (fun p => p.1 = x) with
    | none => rw [hl] at h; simp at h
    | some q => simp [hl]

theorem mem_settleRef (l : List (Nat × Settle)) (r : Nat) (v : Settle)
    (q : Nat × Settle) (h : q ∈ settleRef l r v) : q ∈ l ∨ q = (r, v) := by
  unfold settleRef at h
  split at h
  · exact Or.inl h
  · rcases List.mem_append.mp h with h1 | h1
    · exact Or.inl h1
    · simp at h1
      exact Or.inr h1

theorem perm_cons_getElem {α : Type} (l : List α) (i : Nat) (a : α)
    (h : l[i]? = some a) : l.Perm (a :: l.eraseIdx i) := by
  induction l generalizing i with
  | nil => simp at h
  | cons b t ih =>
    cases i with
    | zero =>
      simp at h
      subst h
      exact List.Perm.refl _
    | succ n =>
      simp at h
      have hperm := ih n h
      have : (b :: t).eraseIdx (n + 1) = b :: t.eraseIdx n := rfl
      rw [this]
      exact List.Perm.trans (hperm.cons b) (List.Perm.swap a b _)

theorem perm_allJobs_enqueue (q e d : List QueueJob) (j : QueueJob) :
    ((q ++ [j]) ++ e ++ d).Perm (j :: (q ++ e ++ d)) := by
  have h1 : (q ++ [j]) ++ e ++ d = q ++ j :: (e ++ d) := by
    simp [List.append_assoc]
  rw [h1]
  have h2 := @List.perm_middle _ j q (e ++ d)
  simp only [List.append_assoc]
  exact h2

end AQ

namespace AQ

theorem qinv_enqueue (cfg : QueueConfig) (s : QState) (k : String)
    (hd : cfg.deduplication = true) (h : QInv s) :
    QInv (applyStep cfg s (QStep.enqueue k)) := by
  unfold applyStep
  dsimp only
  by_cases hl : (lookupKey s.dedupMap k).isSome = true
  · rw [if_pos (show _ ∧ _ from ⟨hd, hl⟩)]
    obtain ⟨r, hr⟩ := Option.isSome_iff_exists.mp hl
    rw [hr]
    exact ⟨h.createdLt, h.settledLt, h.mapSub, h.jobsSub, h.jobMap,
      h.jobUnsettled, h.createdCnt, h.jobCnt, h.createdLive, h.invokedSub,
      h.invokedBound⟩
  · rw [if_neg (fun hc => hl hc.2)]
    have hlk : lookupKey s.dedupMap k = none := by
      cases hx : lookupKey s.dedupMap k with
      | none => rfl
      | some r => rw [hx] at hl; simp at hl
    rw [if_pos hd, mapSet_of_lookup_none s.dedupMap k s.nextRef hlk]
    have hperm : (jobPairs { s with
        queue := s.queue ++ [QueueJob.mk k s.nextRef 0]
        dedupMap := s.dedupMap ++ [(k, s.nextRef)]
        attached := s.attached ++ [(s.nextCaller, s.nextRef)]
        createdLog := s.createdLog ++ [(k, s.nextRef)]
        nextRef := s.nextRef + 1
        nextCaller := s.nextCaller + 1 }).Perm
        ((k, s.nextRef) :: jobPairs s) := by
      have hp := perm_allJobs_enqueue s.queue s.executing s.delaying
        (QueueJob.mk k s.nextRef 0)
      have := hp.map (fun j => (j.id, j.jobRef))
      simpa [jobPairs, allJobs] using this
    -- keys and refs of live jobs are strictly below nextRef
    have hjobLt : ∀ p ∈ jobPairs s, p.2 < s.nextRef :=
      fun p hp => h.createdLt p (h.jobsSub p hp)
    -- no live job has key k (its map entry would contradict hlk)
    have hnok : ∀ p ∈ jobPairs s, ¬ p.1 = k := by
      intro p hp hpk
      have := h.jobMap p hp
      rw [hpk, hlk] at this
      exact Option.noConfusion this
    refine ⟨?_, ?_, ?_, ?_, ?_, ?_, ?_, ?_, ?_, ?_, ?_⟩
    · intro p hp
      dsimp only at hp ⊢
      rcases List.mem_append.mp hp with h1 | h1
      · exact Nat.lt_trans (h.createdLt p h1) (Nat.lt_succ_self _)
      · simp at h1
        subst h1
        exact Nat.lt_succ_self _
    · intro p hp
      dsimp only at hp ⊢
      exact Nat.lt_trans (h.settledLt p hp) (Nat.lt_succ_self _)
    · intro p hp
      dsimp only at hp ⊢
      rcases List.mem_append.mp hp with h1 | h1
      · exact List.mem_append_left _ (h.mapSub p h1)
      · exact List.mem_append_right _ h1
    · intro p hp
      dsimp only
      rcases List.mem_cons.mp ((hperm.mem_iff).mp hp) with h1 | h1
      · rw [h1]
        exact List.mem_append_right _ (by simp)
      · exact List.mem_append_left _ (h.jobsSub p h1)
    · intro p hp
      dsimp only
      rcases List.mem_cons.mp ((hperm.mem_iff).mp hp) with h1 | h1
      · rw [h1]
        exact lookupKey_append_single_self s.dedupMap k s.nextRef hlk
      · have hne : ¬ p.1 = k := hnok p h1
        rw [lookupKey_append_single_ne s.dedupMap k s.nextRef p.1 hne]
        exact h.jobMap p h1
    · intro p hp
      dsimp only
      rcases List.mem_cons.mp ((hperm.mem_iff).mp hp) with h1 | h1
      · rw [h1]
        apply List.find?_eq_none.mpr
        intro q hq
        simp only [decide_eq_true_eq]
        intro hq1
        exact Nat.lt_irrefl _ (hq1 ▸ h.settledLt q hq)
      · exact h.jobUnsettled p h1
    · intro r
      dsimp only
      rw [List.map_append, List.count_append]
      by_cases hr : r = s.nextRef
      · have hzero : (s.createdLog.map Prod.snd).count r = 0 := by
          apply List.count_eq_zero.mpr
          intro hmem
          obtain ⟨p, hp, hp2⟩ := List.mem_map.mp hmem
          rw [hr] at hp2
          exact Nat.lt_irrefl _ (hp2 ▸ h.createdLt p hp)
        rw [hzero]
        simp [hr]
      · have hone : (([(k, s.nextRef)]).map Prod.snd).count r = 0 := by
          simp [hr]
        rw [hone]
        simpa using h.createdCnt r
    · intro r
      rw [(hperm.map Prod.snd).count_eq r]
      by_cases hr : r = s.nextRef
      · have hzero : ((jobPairs s).map Prod.snd).count r = 0 := by
          apply List.count_eq_zero.mpr
          intro hmem
          obtain ⟨p, hp, hp2⟩ := List.mem_map.mp hmem
          rw [hr] at hp2
          exact Nat.lt_irrefl _ (hp2 ▸ hjobLt p hp)
        simp only [List.map_cons, List.count_cons, hzero]
        simp [hr]
      · have h2 : ((((k, s.nextRef)) :: jobPairs s).map Prod.snd).count r =
            ((jobPairs s).map Prod.snd).count r := by
          simp [List.count_cons, hr]
        rw [h2]
        exact h.jobCnt r
    · intro p hp
      dsimp only at hp ⊢
      rcases List.mem_append.mp hp with h1 | h1
      · rcases h.createdLive p h1 with h2 | h2
        · exact Or.inl h2
        · by_cases hpk : p.1 = k
          · rw [hpk, hlk] at h2
            exact Option.noConfusion h2
          · exact Or.inr (by
              rw [lookupKey_append_single_ne s.dedupMap k s.nextRef p.1 hpk]
              exact h2)
      · simp at h1
        subst h1
        exact Or.inr (lookupKey_append_single_self s.dedupMap k s.nextRef hlk)
    · intro r hr
      dsimp only at hr ⊢
      obtain ⟨k2, hk2⟩ := h.invokedSub r hr
      exact ⟨k2, List.mem_append_left _ hk2⟩
    · intro r
      dsimp only
      simp only [List.map_append, List.count_append, List.map_cons,
        List.map_nil]
      have := h.invokedBound r
      omega

end AQ

namespace AQ

theorem qinv_dispatch (cfg : QueueConfig) (s : QState) (h : QInv s) :
    QInv (applyStep cfg s QStep.dispatch) := by
  unfold applyStep
  dsimp only
  by_cases hge : procCount s ≥ cfg.concurrency
  · rw [if_pos hge]
    exact h
  · rw [if_neg hge]
    cases hq : s.queue with
    | nil => exact h
    | cons j rest =>
      dsimp only
      have hperm : (jobPairs { s with
          queue := rest
          executing := s.executing ++ [j]
          invokedLog := s.invokedLog ++ [j.jobRef] }).Perm (jobPairs s) := by
        unfold jobPairs allJobs
        dsimp only
        rw [hq]
        apply List.Perm.map
        have h1 : (s.executing ++ [j]).Perm (j :: s.executing) :=
          List.perm_append_singleton j s.executing
        have h2 : (rest ++ (s.executing ++ [j])).Perm
            (rest ++ (j :: s.executing)) := h1.append_left rest
        have h3 := h2.append_right s.delaying
        refine h3.trans ?_
        have h4 : (rest ++ j :: s.executing).Perm
            (j :: (rest ++ s.executing)) := List.perm_middle
        have h5 := h4.append_right s.delaying
        simp only [List.append_assoc, List.cons_append] at h5 ⊢
        exact h5
      have hjmem : j ∈ allJobs s := by
        unfold allJobs
        rw [hq]
        exact List.mem_append_left _ (List.mem_append_left _ (by simp))
      refine ⟨?_, ?_, ?_, ?_, ?_, ?_, ?_, ?_, ?_, ?_, ?_⟩
      · exact h.createdLt
      · exact h.settledLt
      · exact h.mapSub
      · intro p hp
        exact h.jobsSub p (hperm.mem_iff.mp hp)
      · intro p hp
        exact h.jobMap p (hperm.mem_iff.mp hp)
      · intro p hp
        exact h.jobUnsettled p (hperm.mem_iff.mp hp)
      · exact h.createdCnt
      · intro r
        rw [(hperm.map Prod.snd).count_eq r]
        exact h.jobCnt r
      · exact h.createdLive
      · intro r hr
        dsimp only at hr
        rcases List.mem_append.mp hr with h1 | h1
        · exact h.invokedSub r h1
        · simp at h1
          refine ⟨j.id, ?_⟩
          rw [h1]
          exact h.jobsSub (j.id, j.jobRef) (List.mem_map.mpr ⟨j, hjmem, rfl⟩)
      · intro r
        dsimp only
        have hb := h.invokedBound r
        rw [hq] at hb
        simp only [List.map_cons, List.count_cons, List.count_append,
          List.map_nil, List.count_nil] at hb ⊢
        omega

end AQ

namespace AQ

/-- The `(key, ref)` pairs of the live jobs after removing the `i`-th
executing job: the old pair list is a permutation of the removed job's pair
consed onto the new one. -/
theorem jobPairs_perm_eraseIdx (s : QState) (i : Nat) (j : QueueJob)
    (hj : s.executing[i]? = some j) :
    (jobPairs s).Perm ((j.id, j.jobRef) ::
      ((s.queue ++ s.executing.eraseIdx i ++ s.delaying).map
        (fun x => (x.id, x.jobRef)))) := by
  unfold jobPairs allJobs
  show (List.map (fun x => (x.id, x.jobRef))
      (s.queue ++ s.executing ++ s.delaying)).Perm
    (List.map (fun x => (x.id, x.jobRef))
      (j :: (s.queue ++ s.executing.eraseIdx i ++ s.delaying)))
  apply List.Perm.map
  have hpe : s.executing.Perm (j :: s.executing.eraseIdx i) :=
    perm_cons_getElem _ i j hj
  have h1 := (hpe.append_left s.queue).append_right s.delaying
  refine h1.trans ?_
  have h2 : (s.queue ++ j :: s.executing.eraseIdx i).Perm
      (j :: (s.queue ++ s.executing.eraseIdx i)) := List.perm_middle
  have h3 := h2.append_right s.delaying
  simp only [List.append_assoc, List.cons_append] at h3 ⊢
  exact h3

theorem jobRef_lt_of_mem (s : QState) (h : QInv s) (p : String × Nat)
    (hp : p ∈ jobPairs s) : p.2 < s.nextRef :=
  h.createdLt p (h.jobsSub p hp)

theorem qinv_completeOk (cfg : QueueConfig) (s : QState) (i dt : Nat)
    (h : QInv s) : QInv (applyStep cfg s (QStep.completeOk i dt)) := by
  unfold applyStep
  dsimp only
  cases hj : s.executing[i]? with
  | none => exact h
  | some j =>
    dsimp only
    have hperm := jobPairs_perm_eraseIdx s i j hj
    have hjmem : (j.id, j.jobRef) ∈ jobPairs s :=
      hperm.mem_iff.mpr (by simp)
    have hreflt : j.jobRef < s.nextRef := jobRef_lt_of_mem s h _ hjmem
    refine ⟨?_, ?_, ?_, ?_, ?_, ?_, ?_, ?_, ?_, ?_, ?_⟩
    · exact h.createdLt
    · intro p hp
      dsimp only at hp ⊢
      rcases mem_settleRef _ _ _ p hp with h1 | h1
      · exact h.settledLt p h1
      · rw [h1]
        exact hreflt
    · exact h.mapSub
    · intro p hp
      refine h.jobsSub p (hperm.mem_iff.mpr ?_)
      exact List.mem_cons_of_mem _ hp
    · intro p hp
      refine h.jobMap p (hperm.mem_iff.mpr (List.mem_cons_of_mem _ hp))
    · intro p hp
      have hpold : p ∈ jobPairs s :=
        hperm.mem_iff.mpr (List.mem_cons_of_mem _ hp)
      have hnone := h.jobUnsettled p hpold
      have hne : ¬ p.2 = j.jobRef := by
        intro he
        have hcnt := (hperm.map Prod.snd).count_eq j.jobRef
        rw [List.map_cons, List.count_cons] at hcnt
        simp only [beq_iff_eq, if_true] at hcnt
        have hmem2 : j.jobRef ∈
            (((s.queue ++ s.executing.eraseIdx i ++ s.delaying).map
              (fun x => (x.id, x.jobRef))).map Prod.snd) := by
          refine List.mem_map.mpr ⟨p, hp, ?_⟩
          rw [he]
        have hpos := List.count_pos_iff.mpr hmem2
        have hle := h.jobCnt j.jobRef
        omega
      rw [find?_settleRef_ne s.settled j.jobRef Settle.resolvedOk p.2 hne]
      exact hnone
    · exact h.createdCnt
    · intro r
      have hcnt := (hperm.map Prod.snd).count_eq r
      rw [List.map_cons, List.count_cons] at hcnt
      simp only [beq_iff_eq] at hcnt
      have hle := h.jobCnt r
      show ((((s.queue ++ s.executing.eraseIdx i ++ s.delaying).map
        (fun x => (x.id, x.jobRef))).map Prod.snd).count r) ≤ 1
      by_cases hjr : j.jobRef = r
      · simp only [hjr, if_pos] at hcnt
        omega
      · simp only [hjr, if_neg, if_false] at hcnt
        omega
    · intro p hp
      rcases h.createdLive p hp with h1 | h1
      · exact Or.inl (find?_settleRef_isSome_mono _ _ _ _ h1)
      · exact Or.inr h1
    · exact h.invokedSub
    · exact h.invokedBound

end AQ

namespace AQ

theorem qinv_failTerminal (cfg : QueueConfig) (s : QState) (i : Nat)
    (h : QInv s) : QInv (applyStep cfg s (QStep.failTerminal i)) := by
  unfold applyStep
  dsimp only
  cases hj : s.executing[i]? with
  | none => exact h
  | some j =>
    dsimp only
    by_cases hr : j.retries < cfg.maxRetries
    · rw [if_pos hr]
      exact h
    · rw [if_neg hr]
      have hperm := jobPairs_perm_eraseIdx s i j hj
      have hjmem : (j.id, j.jobRef) ∈ jobPairs s :=
        hperm.mem_iff.mpr (by simp)
      have hreflt : j.jobRef < s.nextRef := jobRef_lt_of_mem s h _ hjmem
      refine ⟨?_, ?_, ?_, ?_, ?_, ?_, ?_, ?_, ?_, ?_, ?_⟩
      · exact h.createdLt
      · intro p hp
        dsimp only at hp ⊢
        rcases mem_settleRef _ _ _ p hp with h1 | h1
        · exact h.settledLt p h1
        · rw [h1]
          exact hreflt
      · exact h.mapSub
      · intro p hp
        exact h.jobsSub p (hperm.mem_iff.mpr (List.mem_cons_of_mem _ hp))
      · intro p hp
        exact h.jobMap p (hperm.mem_iff.mpr (List.mem_cons_of_mem _ hp))
      · intro p hp
        have hpold : p ∈ jobPairs s :=
          hperm.mem_iff.mpr (List.mem_cons_of_mem _ hp)
        have hnone := h.jobUnsettled p hpold
        have hne : ¬ p.2 = j.jobRef := by
          intro he
          have hcnt := (hperm.map Prod.snd).count_eq j.jobRef
          rw [List.map_cons, List.count_cons] at hcnt
          simp only [beq_iff_eq, if_true] at hcnt
          have hmem2 : j.jobRef ∈
              (((s.queue ++ s.executing.eraseIdx i ++ s.delaying).map
                (fun x => (x.id, x.jobRef))).map Prod.snd) := by
            refine List.mem_map.mpr ⟨p, hp, ?_⟩
            rw [he]
          have hpos := List.count_pos_iff.mpr hmem2
          have hle := h.jobCnt j.jobRef
          omega
        rw [find?_settleRef_ne s.settled j.jobRef Settle.rejectedErr p.2 hne]
        exact hnone
      · exact h.createdCnt
      · intro r
        have hcnt := (hperm.map Prod.snd).count_eq r
        rw [List.map_cons, List.count_cons] at hcnt
        simp only [beq_iff_eq] at hcnt
        have hle := h.jobCnt r
        show ((((s.queue ++ s.executing.eraseIdx i ++ s.delaying).map
          (fun x => (x.id, x.jobRef))).map Prod.snd).count r) ≤ 1
        by_cases hjr : j.jobRef = r
        · simp only [hjr, if_pos] at hcnt
          omega
        · simp only [hjr, if_neg, if_false] at hcnt
          omega
      · intro p hp
        rcases h.createdLive p hp with h1 | h1
        · exact Or.inl (find?_settleRef_isSome_mono _ _ _ _ h1)
        · exact Or.inr h1
      · exact h.invokedSub
      · exact h.invokedBound

theorem qinv_failBegin (cfg : QueueConfig) (s : QState) (i : Nat)
    (h : QInv s) : QInv (applyStep cfg s (QStep.failBegin i)) := by
  unfold applyStep
  dsimp only
  cases hj : s.executing[i]? with
  | none => exact h
  | some j =>
    dsimp only
    by_cases hr : j.retries < cfg.maxRetries
    · rw [if_pos hr]
      have hperm1 := jobPairs_perm_eraseIdx s i j hj
      have hperm2 : (jobPairs { s with
          executing := s.executing.eraseIdx i
          delaying := s.delaying ++ [{ j with retries := j.retries + 1 }] }).Perm
          ((j.id, j.jobRef) ::
            ((s.queue ++ s.executing.eraseIdx i ++ s.delaying).map
              (fun x => (x.id, x.jobRef)))) := by
        unfold jobPairs allJobs
        dsimp only
        show (List.map (fun x => (x.id, x.jobRef))
            (s.queue ++ s.executing.eraseIdx i ++
              (s.delaying ++ [{ j with retries := j.retries + 1 }]))).Perm
          (List.map (fun x => (x.id, x.jobRef))
            ({ j with retries := j.retries + 1 } ::
              (s.queue ++ s.executing.eraseIdx i ++ s.delaying)))
        apply List.Perm.map
        have h1 : (s.delaying ++ [{ j with retries := j.retries + 1 }]).Perm
            ({ j with retries := j.retries + 1 } :: s.delaying) :=
          List.perm_append_singleton _ _
        have h2 := h1.append_left (s.queue ++ s.executing.eraseIdx i)
        refine h2.trans ?_
        have h3 : ((s.queue ++ s.executing.eraseIdx i) ++
            ({ j with retries := j.retries + 1 } :: s.delaying)).Perm
            ({ j with retries := j.retries + 1 } ::
              ((s.queue ++ s.executing.eraseIdx i) ++ s.delaying)) :=
          List.perm_middle
        simp only [List.append_assoc, List.cons_append] at h3 ⊢
        exact h3
      have hperm : (jobPairs { s with
          executing := s.executing.eraseIdx i
          delaying := s.delaying ++
            [{ j with retries := j.retries + 1 }] }).Perm (jobPairs s) :=
        hperm2.trans hperm1.symm
      refine ⟨?_, ?_, ?_, ?_, ?_, ?_, ?_, ?_, ?_, ?_, ?_⟩
      · exact h.createdLt
      · exact h.settledLt
      · exact h.mapSub
      · intro p hp
        exact h.jobsSub p (hperm.mem_iff.mp hp)
      · intro p hp
        exact h.jobMap p (hperm.mem_iff.mp hp)
      · intro p hp
        exact h.jobUnsettled p (hperm.mem_iff.mp hp)
      · exact h.createdCnt
      · intro r
        rw [(hperm.map Prod.snd).count_eq r]
        exact h.jobCnt r
      · exact h.createdLive
      · exact h.invokedSub
      · exact h.invokedBound
    · rw [if_neg hr]
      exact h

theorem qinv_failRequeue (cfg : QueueConfig) (s : QState) (i : Nat)
    (h : QInv s) : QInv (applyStep cfg s (QStep.failRequeue i)) := by
  unfold applyStep
  dsimp only
  cases hj : s.delaying[i]? with
  | none => exact h
  | some j =>
    dsimp only
    have hpd : s.delaying.Perm (j :: s.delaying.eraseIdx i) :=
      perm_cons_getElem _ i j hj
    have hperm : (jobPairs { s with
        delaying := s.delaying.eraseIdx i
        queue := j :: s.queue
        requeueLog := s.requeueLog ++ [j.jobRef] }).Perm (jobPairs s) := by
      unfold jobPairs allJobs
      dsimp only
      apply List.Perm.map
      have h1 := hpd.append_left (s.queue ++ s.executing)
      have h2 : ((s.queue ++ s.executing) ++
          (j :: s.delaying.eraseIdx i)).Perm
          (j :: ((s.queue ++ s.executing) ++ s.delaying.eraseIdx i)) :=
        List.perm_middle
      have h3 := (h1.trans h2).symm
      simp only [List.append_assoc, List.cons_append] at h3 ⊢
      exact h3
    have hjmem : (j.id, j.jobRef) ∈ jobPairs s := by
      refine List.mem_map.mpr ⟨j, ?_, rfl⟩
      unfold allJobs
      refine List.mem_append_right _ (hpd.mem_iff.mpr (by simp))
    refine ⟨?_, ?_, ?_, ?_, ?_, ?_, ?_, ?_, ?_, ?_, ?_⟩
    · exact h.createdLt
    · exact h.settledLt
    · exact h.mapSub
    · intro p hp
      exact h.jobsSub p (hperm.mem_iff.mp hp)
    · intro p hp
      exact h.jobMap p (hperm.mem_iff.mp hp)
    · intro p hp
      exact h.jobUnsettled p (hperm.mem_iff.mp hp)
    · exact h.createdCnt
    · intro r
      rw [(hperm.map Prod.snd).count_eq r]
      exact h.jobCnt r
    · exact h.createdLive
    · exact h.invokedSub
    · intro r
      dsimp only
      have hb := h.invokedBound r
      simp only [List.map_cons, List.count_cons, List.count_append,
        List.map_append, List.map_nil, List.count_nil] at hb ⊢
      omega

theorem qinv_dedupCleanup (cfg : QueueConfig) (s : QState) (k : String)
    (h : QInv s) : QInv (applyStep cfg s (QStep.dedupCleanup k)) := by
  unfold applyStep
  dsimp only
  cases hl : lookupKey s.dedupMap k with
  | none => exact h
  | some r =>
    dsimp only
    by_cases hs : (s.settled.find? (fun p => p.1 = r)).isSome = true
    · rw [if_pos hs]
      have hnok : ∀ p ∈ jobPairs s, ¬ p.1 = k := by
        intro p hp hpk
        have h1 := h.jobMap p hp
        rw [hpk, hl] at h1
        have h2 : r = p.2 := by injection h1
        have h3 := h.jobUnsettled p hp
        rw [← h2] at h3
        rw [h3] at hs
        simp at hs
      refine ⟨?_, ?_, ?_, ?_, ?_, ?_, ?_, ?_, ?_, ?_, ?_⟩
      · exact h.createdLt
      · exact h.settledLt
      · intro p hp
        exact h.mapSub p (mem_mapDel _ _ _ hp)
      · exact h.jobsSub
      · intro p hp
        rw [lookupKey_mapDel_ne s.dedupMap k p.1 (hnok p hp)]
        exact h.jobMap p hp
      · exact h.jobUnsettled
      · exact h.createdCnt
      · exact h.jobCnt
      · intro p hp
        rcases h.createdLive p hp with h1 | h1
        · exact Or.inl h1
        · by_cases hpk : p.1 = k
          · rw [hpk, hl] at h1
            have h2 : r = p.2 := by injection h1
            rw [← h2]
            exact Or.inl hs
          · rw [← lookupKey_mapDel_ne s.dedupMap k p.1 hpk] at h1
            exact Or.inr h1
      · exact h.invokedSub
      · exact h.invokedBound
    · rw [if_neg hs]
      exact h

theorem qinv_initQ : QInv initQ := by
  refine ⟨?_, ?_, ?_, ?_, ?_, ?_, ?_, ?_, ?_, ?_, ?_⟩ <;>
    simp [initQ, jobPairs, allJobs]

theorem qinv_step (cfg : QueueConfig) (s : QState) (st : QStep)
    (hd : cfg.deduplication = true) (hnc : ¬ st = QStep.clearAll)
    (h : QInv s) : QInv (applyStep cfg s st) := by
  cases st with
  | enqueue k => exact qinv_enqueue cfg s k hd h
  | dispatch => exact qinv_dispatch cfg s h
  | completeOk i dt => exact qinv_completeOk cfg s i dt h
  | failBegin i => exact qinv_failBegin cfg s i h
  | failRequeue i => exact qinv_failRequeue cfg s i h
  | failTerminal i => exact qinv_failTerminal cfg s i h
  | dedupCleanup k => exact qinv_dedupCleanup cfg s k h
  | clearAll => exact absurd rfl hnc

theorem qinv_runSteps (cfg : QueueConfig) (steps : List QStep)
    (hd : cfg.deduplication = true) (hnc : QStep.clearAll ∉ steps) :
    QInv (runSteps cfg steps) := by
  have hgen : ∀ (l : List QStep) (s : QState), QStep.clearAll ∉ l → QInv s →
      QInv (l.foldl (applyStep cfg) s) := by
    intro l
    induction l with
    | nil => intro s _ hs; exact hs
    | cons st rest ih =>
      intro s hnotin hs
      have h1 : ¬ st = QStep.clearAll := fun he => hnotin (he ▸ List.mem_cons_self st rest)
      have h2 : QStep.clearAll ∉ rest := fun hm => hnotin (List.mem_cons_of_mem _ hm)
      exact ih _ h2 (qinv_step cfg s st hd h1 hs)
  exact hgen steps initQ hnc qinv_initQ

end AQ

namespace AQ

/-- Under the invariant, at most one live job exists for any key. -/
theorem inFlight_length_le_one (s : QState) (hinv : QInv s) (k : String) :
    (inFlight s k).length ≤ 1 := by
  by_cases hemp : inFlight s k = []
  · rw [hemp]
    simp
  · obtain ⟨j, hjmem⟩ := List.exists_mem_of_ne_nil _ hemp
    have hallid : ∀ x ∈ inFlight s k, x.id = k := by
      intro x hx
      have hm := List.mem_filter.mp hx
      simpa using hm.2
    have hallmem : ∀ x ∈ inFlight s k, x ∈ allJobs s :=
      fun x hx => (List.mem_filter.mp hx).1
    have hlookup : ∀ x ∈ inFlight s k,
        lookupKey s.dedupMap k = some x.jobRef := by
      intro x hx
      have hpair : (x.id, x.jobRef) ∈ jobPairs s :=
        List.mem_map.mpr ⟨x, hallmem x hx, rfl⟩
      have h1 := hinv.jobMap _ hpair
      rw [hallid x hx] at h1
      exact h1
    have hrefeq : ∀ x ∈ inFlight s k, x.jobRef = j.jobRef := by
      intro x hx
      have h1 := hlookup x hx
      have h2 := hlookup j hjmem
      rw [h1] at h2
      exact Option.some.inj h2
    have hcount : ((inFlight s k).map (fun x => x.jobRef)).count j.jobRef =
        ((inFlight s k).map (fun x => x.jobRef)).length := by
      apply List.count_eq_length.mpr
      intro b hb
      obtain ⟨x, hx, hxb⟩ := List.mem_map.mp hb
      rw [← hxb]
      exact (hrefeq x hx).symm
    have hsub : List.Sublist ((inFlight s k).map (fun x => x.jobRef))
        ((allJobs s).map (fun x => x.jobRef)) :=
      (List.filter_sublist _).map _
    have hle1 : ((allJobs s).map (fun x => x.jobRef)).count j.jobRef ≤ 1 := by
      have h1 := hinv.jobCnt j.jobRef
      simpa [jobPairs, List.map_map, Function.comp] using h1
    have h4 := hsub.count_le j.jobRef
    rw [hcount, List.length_map] at h4
    omega

/-- Under the invariant, if no job created for `k` has settled yet, the
created jobs for `k` number at most one, their promise references coincide
and are observed through identical settlement lookups, task invocations for
`k` are of created jobs only, and the number of invocations for `k` is at
most one plus the number of retry re-enqueues. -/
theorem dedup_state_facts (s : QState) (hinv : QInv s) (k : String)
    (hns : ∀ r ∈ createdFor s k,
      s.settled.find? (fun p => p.1 = r) = none) :
    (createdFor s k).length ≤ 1 ∧
    (∀ r₁ r₂, (k, r₁) ∈ s.createdLog → (k, r₂) ∈ s.createdLog → r₁ = r₂) ∧
    (∀ c₁ c₂ r₁ r₂,
      s.attached.find? (fun p => p.1 = c₁) = some (c₁, r₁) →
      s.attached.find? (fun p => p.1 = c₂) = some (c₂, r₂) →
      (k, r₁) ∈ s.createdLog → (k, r₂) ∈ s.createdLog →
      observes s c₁ = observes s c₂) ∧
    (∀ r ∈ invokedFor s k, (k, r) ∈ s.createdLog) ∧
    (invokedFor s k).length ≤ 1 + s.requeueLog.length := by
  have hmap : ∀ r, (k, r) ∈ s.createdLog →
      lookupKey s.dedupMap k = some r := by
    intro r hmem
    rcases hinv.createdLive (k, r) hmem with h1 | h1
    · have hr : r ∈ createdFor s k := by
        refine List.mem_map.mpr ⟨(k, r), ?_, rfl⟩
        exact List.mem_filter.mpr ⟨hmem, by simp⟩
      rw [hns r hr] at h1
      simp at h1
    · exact h1
  have huniq : ∀ r₁ r₂, (k, r₁) ∈ s.createdLog → (k, r₂) ∈ s.createdLog →
      r₁ = r₂ := by
    intro r₁ r₂ h1 h2
    have e1 := hmap r₁ h1
    have e2 := hmap r₂ h2
    rw [e1] at e2
    exact Option.some.inj e2
  have hback : ∀ x ∈ createdFor s k, (k, x) ∈ s.createdLog := by
    intro x hx
    obtain ⟨p, hp, hpx⟩ := List.mem_map.mp hx
    obtain ⟨a, b⟩ := p
    have hpk : a = k := by
      have := (List.mem_filter.mp hp).2
      simpa using this
    have hb : b = x := hpx
    rw [← hpk, ← hb]
    exact (List.mem_filter.mp hp).1
  refine ⟨?_, huniq, ?_, ?_, ?_⟩
  · by_cases hemp : createdFor s k = []
    · rw [hemp]
      simp
    · obtain ⟨r0, hr0⟩ := List.exists_mem_of_ne_nil _ hemp
      have hcount : (createdFor s k).count r0 = (createdFor s k).length := by
        apply List.count_eq_length.mpr
        intro b hb
        exact huniq r0 b (hback r0 hr0) (hback b hb)
      have hsub : List.Sublist (createdFor s k)
          (s.createdLog.map Prod.snd) := by
        unfold createdFor
        exact (List.filter_sublist _).map _
      have h4 := hsub.count_le r0
      have h5 := hinv.createdCnt r0
      omega
  · intro c₁ c₂ r₁ r₂ hf1 hf2 hc1 hc2
    have he := huniq r₁ r₂ hc1 hc2
    unfold observes
    rw [hf1, hf2]
    simp [he]
  · intro r hr
    have hm := List.mem_filter.mp hr
    exact of_decide_eq_true hm.2
  · by_cases hemp : invokedFor s k = []
    · rw [hemp]
      simp
    · obtain ⟨r0, hr0⟩ := List.exists_mem_of_ne_nil _ hemp
      have hinvmem : ∀ x ∈ invokedFor s k, (k, x) ∈ s.createdLog := by
        intro x hx
        exact of_decide_eq_true (List.mem_filter.mp hx).2
      have hcount : (invokedFor s k).count r0 = (invokedFor s k).length := by
        apply List.count_eq_length.mpr
        intro b hb
        exact huniq r0 b (hinvmem r0 hr0) (hinvmem b hb)
      have hsub : List.Sublist (invokedFor s k) s.invokedLog :=
        List.filter_sublist _
      have h4 := hsub.count_le r0
      have h5 := hinv.invokedBound r0
      have h6 := hinv.createdCnt r0
      have h7 := List.count_le_length r0 s.requeueLog
      omega

end AQ

/-- C3 (amended).  With deduplication enabled and under every interleaving
of enqueue, dispatch, settlement, retry and dedup-map cleanup — `clear()`
excluded, since it empties the dedup index while executing jobs survive
(see the counterexample) — at most one PendingJob exists per key at any
instant, and while the dedup map holds a promise for a key, every new
`enqueue` for that key attaches the caller to that promise instead of
creating a new job. -/
theorem c3_single_pending_job_per_key (cfg : AQ.QueueConfig)
    (steps : List AQ.QStep) (hd : cfg.deduplication = true)
    (hnc : AQ.QStep.clearAll ∉ steps) :
    (∀ k, (AQ.inFlight (AQ.runSteps cfg steps) k).length ≤ 1) ∧
    (∀ k r, AQ.lookupKey (AQ.runSteps cfg steps).dedupMap k = some r →
      (AQ.applyStep cfg (AQ.runSteps cfg steps)
          (AQ.QStep.enqueue k)).createdLog =
        (AQ.runSteps cfg steps).createdLog ∧
      (AQ.applyStep cfg (AQ.runSteps cfg steps)
          (AQ.QStep.enqueue k)).queue = (AQ.runSteps cfg steps).queue ∧
      (AQ.applyStep cfg (AQ.runSteps cfg steps)
          (AQ.QStep.enqueue k)).attached =
        (AQ.runSteps cfg steps).attached ++
          [((AQ.runSteps cfg steps).nextCaller, r)]) := by
  have hinv := AQ.qinv_runSteps cfg steps hd hnc
  constructor
  · intro k
    exact AQ.inFlight_length_le_one _ hinv k
  · intro k r hr
    unfold AQ.applyStep
    dsimp only
    rw [if_pos (show (cfg.deduplication = true) ∧
        ((AQ.lookupKey (AQ.runSteps cfg steps).dedupMap k).isSome = true)
        from ⟨hd, by rw [hr]; rfl⟩)]
    rw [hr]
    exact ⟨rfl, rfl, rfl⟩

/-- C3 (amended, witness): ten deduplicated enqueues for `"k"` and the
first dispatch, a clear-free schedule under the default configuration. -/
theorem c3_single_pending_job_per_key_witness :
    AQ.cfgDefault.deduplication = true ∧
    AQ.QStep.clearAll ∉ AQ.dedupTrace ∧
    (AQ.inFlight (AQ.runSteps AQ.cfgDefault AQ.dedupTrace) "k").length ≤ 1 ∧
    (AQ.lookupKey (AQ.runSteps AQ.cfgDefault AQ.dedupTrace).dedupMap "k" =
      some 0 →
      (AQ.applyStep AQ.cfgDefault (AQ.runSteps AQ.cfgDefault AQ.dedupTrace)
          (AQ.QStep.enqueue "k")).createdLog =
        (AQ.runSteps AQ.cfgDefault AQ.dedupTrace).createdLog ∧
      (AQ.applyStep AQ.cfgDefault (AQ.runSteps AQ.cfgDefault AQ.dedupTrace)
          (AQ.QStep.enqueue "k")).queue =
        (AQ.runSteps AQ.cfgDefault AQ.dedupTrace).queue ∧
      (AQ.applyStep AQ.cfgDefault (AQ.runSteps AQ.cfgDefault AQ.dedupTrace)
          (AQ.QStep.enqueue "k")).attached =
        (AQ.runSteps AQ.cfgDefault AQ.dedupTrace).attached ++
          [((AQ.runSteps AQ.cfgDefault AQ.dedupTrace).nextCaller, 0)]) :=
  ⟨by decide, by decide,
    (c3_single_pending_job_per_key AQ.cfgDefault AQ.dedupTrace
      (by decide) (by decide)).1 "k",
    (c3_single_pending_job_per_key AQ.cfgDefault AQ.dedupTrace
      (by decide) (by decide)).2 "k" 0⟩

/-- C2.  With deduplication enabled and no `clear()` in the schedule, while
no job created for a key `k` has settled: at most one job object for `k`
was ever created; any two such created promise references are equal, so all
callers that attached to `k`-jobs hold the same shared promise and observe
the identical outcome; every `task()` invocation for `k` belongs to a
created `k`-job; and the number of invocations of that single shared task
is at most one plus the number of retry re-enqueues (exactly one per
attempt round). -/
theorem c2_dedup_shared_job (cfg : AQ.QueueConfig) (steps : List AQ.QStep)
    (k : String) (hd : cfg.deduplication = true)
    (hnc : AQ.QStep.clearAll ∉ steps)
    (hns : ∀ r ∈ AQ.createdFor (AQ.runSteps cfg steps) k,
      (AQ.runSteps cfg steps).settled.find? (fun p => p.1 = r) = none) :
    (AQ.createdFor (AQ.runSteps cfg steps) k).length ≤ 1 ∧
    (∀ r₁ r₂, (k, r₁) ∈ (AQ.runSteps cfg steps).createdLog →
      (k, r₂) ∈ (AQ.runSteps cfg steps).createdLog → r₁ = r₂) ∧
    (∀ c₁ c₂ r₁ r₂,
      (AQ.runSteps cfg steps).attached.find? (fun p => p.1 = c₁) =
        some (c₁, r₁) →
      (AQ.runSteps cfg steps).attached.find? (fun p => p.1 = c₂) =
        some (c₂, r₂) →
      (k, r₁) ∈ (AQ.runSteps cfg steps).createdLog →
      (k, r₂) ∈ (AQ.runSteps cfg steps).createdLog →
      AQ.observes (AQ.runSteps cfg steps) c₁ =
        AQ.observes (AQ.runSteps cfg steps) c₂) ∧
    (∀ r ∈ AQ.invokedFor (AQ.runSteps cfg steps) k,
      (k, r) ∈ (AQ.runSteps cfg steps).createdLog) ∧
    (AQ.invokedFor (AQ.runSteps cfg steps) k).length ≤
      1 + (AQ.runSteps cfg steps).requeueLog.length :=
  AQ.dedup_state_facts (AQ.runSteps cfg steps)
    (AQ.qinv_runSteps cfg steps hd hnc) k hns

/-- C2 (witness): ten concurrent enqueues for `"k"` followed by the first
dispatch, under the default configuration: one job created, all ten callers
attached to promise 0, one task invocation. -/
theorem c2_dedup_shared_job_witness :
    AQ.cfgDefault.deduplication = true ∧
    AQ.QStep.clearAll ∉ AQ.dedupTrace ∧
    (∀ r ∈ AQ.createdFor (AQ.runSteps AQ.cfgDefault AQ.dedupTrace) "k",
      (AQ.runSteps AQ.cfgDefault AQ.dedupTrace).settled.find?
        (fun p => p.1 = r) = none) ∧
    (AQ.createdFor (AQ.runSteps AQ.cfgDefault AQ.dedupTrace) "k").length ≤
      1 ∧
    (AQ.observes (AQ.runSteps AQ.cfgDefault AQ.dedupTrace) 0 =
      AQ.observes (AQ.runSteps AQ.cfgDefault AQ.dedupTrace) 9) ∧
    ((0 : Nat) ∈ AQ.invokedFor (AQ.runSteps AQ.cfgDefault AQ.dedupTrace)
        "k" →
      ("k", (0 : Nat)) ∈
        (AQ.runSteps AQ.cfgDefault AQ.dedupTrace).createdLog) ∧
    (AQ.invokedFor (AQ.runSteps AQ.cfgDefault AQ.dedupTrace) "k").length ≤
      1 + (AQ.runSteps AQ.cfgDefault AQ.dedupTrace).requeueLog.length :=
  ⟨by decide, by decide, by decide,
    (c2_dedup_shared_job AQ.cfgDefault AQ.dedupTrace "k" (by decide)
      (by decide) (by decide)).1,
    (c2_dedup_shared_job AQ.cfgDefault AQ.dedupTrace "k" (by decide)
      (by decide) (by decide)).2.2.1 0 9 0 0 (by decide) (by decide)
      (by decide) (by decide),
    (c2_dedup_shared_job AQ.cfgDefault AQ.dedupTrace "k" (by decide)
      (by decide) (by decide)).2.2.2.1 0,
    (c2_dedup_shared_job AQ.cfgDefault AQ.dedupTrace "k" (by decide)
      (by decide) (by decide)).2.2.2.2⟩
